import Mathlib

/-!
Verification of the schema parser interpreter (`packages/schema/src/Parser.ts`).

The embedding models the JavaScript runtime values the parser consumes, the
schema AST fragment exercised by the parser (`parserFor`), the diagnostic
model (`ParseError` / `ParseResult`), and the compiled parser produced by the
interpreter `go` for the three directions (decoder / guard / encoder).

Modelling notes:
  - JavaScript numbers are modelled as `Int` (float-specific behaviour such as
    `NaN` or non-integral `BigInt(number)` coercion failure is out of scope).
  - Object keys are strings; symbol-keyed properties are not representable,
    so a `symbolKeyword` index signature matches no key of an input object.
  - The `TypeAlias`, `Lazy` and `TemplateLiteral` node kinds (hook registry,
    recursion fix-point, regex matching) are outside the embedded fragment;
    no claim depends on them.
  - `Refinement.decode` and `Transform.decode`/`encode` are arbitrary pure
    functions in the source; the embedding draws them from the first-order
    class `StepFn`, which suffices for every claim.
-/

namespace Schema

/-- JavaScript-like runtime values consumed and produced by the parser. -/
inductive Value where
  | str (s : String)
  | num (n : Int)
  | bool (b : Bool)
  | bigint (n : Int)
  | null
  | undefinedV
  | sym (s : String)
  | arr (xs : List Value)
  | obj (kvs : List (String × Value))

mutual
/-- Structural Boolean equality on values, modelling JavaScript `===` as the
parser uses it (only ever applied to primitive payloads: literals, unique
symbols and enum values). -/
def vEq : Value → Value → Bool
  | .str a, .str b => a == b
  | .num a, .num b => a == b
  | .bool a, .bool b => a == b
  | .bigint a, .bigint b => a == b
  | .null, .null => true
  | .undefinedV, .undefinedV => true
  | .sym a, .sym b => a == b
  | .arr xs, .arr ys => vEqList xs ys
  | .obj xs, .obj ys => vEqKVs xs ys
  | _, _ => false
termination_by structural x => x

def vEqList : List Value → List Value → Bool
  | [], [] => true
  | x :: xs, y :: ys => vEq x y && vEqList xs ys
  | _, _ => false
termination_by structural x => x

def vEqKVs : List (String × Value) → List (String × Value) → Bool
  | [], [] => true
  | (k, x) :: xs, (l, y) :: ys => k == l && vEq x y && vEqKVs xs ys
  | _, _ => false
termination_by structural x => x
end

/-- `ParseOptions` (source lines 24-27); absent fields behave as `false`. -/
structure ParseOptions where
  isUnexpectedAllowed : Bool := false
  allErrors : Bool := false

/-- The direction parameter `as` of `parserFor` (source line 118). -/
inductive Direction where
  | decoder
  | guard
  | encoder

/-- First-order class of the pure functions a `Refinement` or `Transform`
node may carry as `decode` / `encode` legs (each is `(a) => ParseResult`). -/
inductive StepFn where
  | succeedConst (v : Value)
  | succeedId
  | failMissing

/-- The schema AST fragment interpreted by `parserFor`. Payloads follow
`AST.ts`: a tuple's `rest`, when present, is a non-empty array modelled as
head plus tail; property signatures carry `(name, type, isOptional)`; index
signatures carry `(parameter, type)`. -/
inductive AST where
  | literal (v : Value)
  | uniqueSymbol (s : String)
  | undefinedKeyword
  | voidKeyword
  | neverKeyword
  | unknownKeyword
  | anyKeyword
  | stringKeyword
  | numberKeyword
  | booleanKeyword
  | bigIntKeyword
  | symbolKeyword
  | objectKeyword
  | tuple (elements : List (AST × Bool)) (rest : Option (AST × List AST)) (isReadonly : Bool)
  | typeLiteral (propertySignatures : List (String × AST × Bool))
      (indexSignatures : List (AST × AST))
  | union (types : List AST)
  | enums (enums : List (String × Value))
  | refinement (frm : AST) (dec : StepFn)
  | transform (frm tgt : AST) (dec enc : StepFn)

/-- `ParseError` (§3.2): shape errors and path errors. -/
inductive PErr where
  | type (ast : AST) (actual : Value)
  | missing
  | unexpected (actual : Value)
  | equal (expected actual : Value)
  | transform (frm tgt : AST) (actual : Value)
  | index (i : Nat) (errors : List PErr)
  | key (k : String) (errors : List PErr)
  | member (errors : List PErr)

/-- `ParseResult` (§3.2): a `These`-shaped result; `failure` is `Left`,
`warning` is `Both`, `success` is `Right`. -/
inductive PR where
  | failure (es : List PErr)
  | warning (es : List PErr) (a : Value)
  | success (a : Value)

/-- `PE.isFailure`. -/
def isFailureB : PR → Bool
  | .failure _ => true
  | _ => false

/-- `PE.isSuccess`. -/
def isSuccessB : PR → Bool
  | .success _ => true
  | _ => false

/-- `PE.hasWarnings` (the result is a `Both`). -/
def isWarningB : PR → Bool
  | .warning _ _ => true
  | _ => false

/-- The diagnostics carried by a result (empty for a success). -/
def errsOf : PR → List PErr
  | .failure es => es
  | .warning es _ => es
  | .success _ => []

/-- Modelled from the spec: `I.flatMap` on `ParseResult`
(`@fp-ts/schema/internal/common`, not under `src/`) is the `These` chain —
failures pass through, and warnings accumulated before the continuation are
prepended to whatever the continuation produces (§7: refinement and
transform failures pass through with earlier warnings attached). -/
def prFlatMap (t : PR) (f : Value → PR) : PR :=
  match t with
  | .failure es => .failure es
  | .success a => f a
  | .warning es a =>
    match f a with
    | .success b => .warning es b
    | .warning es2 b => .warning (es ++ es2) b
    | .failure es2 => .failure (es ++ es2)

/-- Evaluation of an embedded `decode` / `encode` leg. -/
def evalStep : StepFn → Value → PR
  | .succeedConst v, _ => .success v
  | .succeedId, a => .success a
  | .failMissing, _ => .failure [.missing]

/-- JavaScript array indexing (`input[i]`, `undefined` out of range). -/
def jsIndex (xs : List Value) (i : Nat) : Value := xs.getD i .undefinedV

/-- `Object.prototype.hasOwnProperty.call(input, name)`. -/
def hasOwn (kvs : List (String × Value)) (k : String) : Bool :=
  kvs.any (fun p => p.1 == k)

/-- JavaScript property read `input[name]` (`undefined` when absent). -/
def jsGetKey (kvs : List (String × Value)) (k : String) : Value :=
  match kvs.find? (fun p => p.1 == k) with
  | some p => p.2
  | none => .undefinedV

/-- Modelled from the spec: `I.ownKeys` (internal/common, not under `src/`)
enumerates the input's own keys; in this value model those are the object's
string keys in insertion order. -/
def ownKeys (kvs : List (String × Value)) : List String := kvs.map Prod.fst

/-- JavaScript property write `output[name] = v` on a fresh object:
overwrite in place when the key exists, else append. -/
def setKey : List (String × Value) → String → Value → List (String × Value)
  | [], k, v => [(k, v)]
  | (k', v') :: tl, k, v =>
    if k' == k then (k', v) :: tl else (k', v') :: setKey tl k v

/-- Modelled from the spec: `I.getKeysForIndexSignature` (internal/common,
not under `src/`) enumerates the own keys of the input matching the index
signature parameter's key kind (§4.4 TypeLiteral step 3). String-keyword
parameters match every string key; in this value model object keys are
always strings, so any other parameter (e.g. `symbolKeyword`) matches none. -/
def getKeysForIndexSignature (kvs : List (String × Value)) (param : AST) : List String :=
  match param with
  | .stringKeyword => kvs.map Prod.fst
  | _ => []

/-- Decimal digits to a natural number. -/
def digitsToNat (ds : List Char) : Nat :=
  ds.foldl (fun n c => n * 10 + (c.toNat - 48)) 0

/-- Modelled from the spec: the JavaScript `BigInt(string)` builtin on the
decimal fragment (whitespace-trimmed optional-sign decimal digits; the empty
string coerces to `0`; anything else throws, modelled as `none`). -/
def jsBigIntOfString (s : String) : Option Int :=
  match ((s.data.dropWhile Char.isWhitespace).reverse.dropWhile Char.isWhitespace).reverse with
  | [] => some 0
  | '-' :: ds =>
    if ds.length > 0 && ds.all Char.isDigit then some (-(digitsToNat ds : Int)) else none
  | '+' :: ds =>
    if ds.length > 0 && ds.all Char.isDigit then some ((digitsToNat ds : Int)) else none
  | ds => if ds.all Char.isDigit then some ((digitsToNat ds : Int)) else none

/-- Modelled from the spec: `I.fromRefinement` (internal/common, not under
`src/`) — test the input with a refinement and emit the given error on
mismatch (§4.4 singletons and primitives). -/
def fromRefinement (pred : Value → Bool) (onFalse : Value → PErr) : Value → ParseOptions → PR :=
  fun u _ => if pred u then .success u else .failure [onFalse u]

/-- `isString`. -/
def isStringB : Value → Bool
  | .str _ => true
  | _ => false

/-- `isNumber`. -/
def isNumberB : Value → Bool
  | .num _ => true
  | _ => false

/-- `isBoolean`. -/
def isBooleanB : Value → Bool
  | .bool _ => true
  | _ => false

/-- `I.isBigInt`. -/
def isBigIntB : Value → Bool
  | .bigint _ => true
  | _ => false

/-- `I.isUndefined`. -/
def isUndefinedB : Value → Bool
  | .undefinedV => true
  | _ => false

/-- `I.isSymbol`. -/
def isSymbolB : Value → Bool
  | .sym _ => true
  | _ => false

/-- Modelled from the spec: `I.isObject` (internal/common, not under `src/`),
the `ObjectKeyword` refinement — JavaScript `typeof u === "object"`-and-not-
null, which includes arrays. -/
def isObjectB : Value → Bool
  | .obj _ => true
  | .arr _ => true
  | _ => false

/-- Modelled from the spec: `I.isNotNull` (internal/common, not under
`src/`), the refinement used by the zero-signature `TypeLiteral` fast path
(source line 321) — anything except `null` passes. -/
def isNotNullB : Value → Bool
  | .null => false
  | _ => true

/-- Modelled from the spec: `I.isUnknownObject` (internal/common, not under
`src/`) — §4.4 TypeLiteral step 1 rejects non-object-non-null input; in this
value model exactly the `obj` values are records. -/
def isUnknownObjectB : Value → Bool
  | .obj _ => true
  | _ => false

/-- `unknownArray` (source line 544). -/
def unknownArray : AST := .tuple [] (some (.unknownKeyword, [])) true

/-- `unknownRecord` (source lines 546-549). -/
def unknownRecord : AST :=
  .typeLiteral [] [(.stringKeyword, .unknownKeyword), (.symbolKeyword, .unknownKeyword)]

/-- `primitive` (source line 551). -/
def primitive : AST := .union [.stringKeyword, .numberKeyword, .booleanKeyword]

/-- `hasUnexpectedError` (source lines 553-555). -/
def hasUnexpectedError : PErr → Bool
  | .key _ errs => errs.any fun e => match e with | .unexpected _ => true | _ => false
  | .index _ errs => errs.any fun e => match e with | .unexpected _ => true | _ => false
  | _ => false

/-- A compiled parser: `(input, options) => ParseResult` (§ Glossary). -/
abbrev P := Value → ParseOptions → PR

/-- Intermediate state of the imperative container loops: either an early
`return` with a result, or the running `(es, output, isLeft, i)` state. -/
inductive TupleStep where
  | early (r : PR)
  | cont (es : List PErr) (output : List Value) (isLeft : Bool) (i : Nat)

/-- Record-loop state: early `return` or running `(es, output, isLeft)`. -/
inductive RecordStep where
  | early (r : PR)
  | cont (es : List PErr) (output : List (String × Value)) (isLeft : Bool)

/-- The Tuple elements loop (source lines 199-234). -/
def elemsLoop (input : List Value) (opts : ParseOptions) :
    List (P × Bool) → Nat → List PErr → List Value → Bool → TupleStep
  | [], i, es, out, isLeft => .cont es out isLeft i
  | (p, isOpt) :: ps, i, es, out, isLeft =>
    if input.length < i + 1 then
      if isOpt then elemsLoop input opts ps (i + 1) es out isLeft
      else if opts.allErrors then
        elemsLoop input opts ps (i + 1) (es ++ [.index i [.missing]]) out true
      else .early (.failure [.index i [.missing]])
    else
      match p (jsIndex input i) opts with
      | .failure errs =>
        if opts.allErrors then elemsLoop input opts ps (i + 1) (es ++ [.index i errs]) out true
        else .early (.failure (es ++ [.index i errs]))
      | .warning ws v =>
        elemsLoop input opts ps (i + 1) (es ++ [.index i ws]) (out ++ [v]) isLeft
      | .success v => elemsLoop input opts ps (i + 1) es (out ++ [v]) isLeft

/-- The Tuple rest-element loop (source lines 241-258); `n` counts the
remaining iterations of `for (; i < input.length - tail.length; i++)`. -/
def restLoop (input : List Value) (opts : ParseOptions) (head : P) :
    Nat → Nat → List PErr → List Value → Bool → TupleStep
  | 0, i, es, out, isLeft => .cont es out isLeft i
  | n + 1, i, es, out, isLeft =>
    match head (jsIndex input i) opts with
    | .failure errs =>
      if opts.allErrors then restLoop input opts head n (i + 1) (es ++ [.index i errs]) out true
      else .early (.failure (es ++ [.index i errs]))
    | .warning ws v =>
      restLoop input opts head n (i + 1) (es ++ [.index i ws]) (out ++ [v]) isLeft
    | .success v => restLoop input opts head n (i + 1) es (out ++ [v]) isLeft

/-- The Tuple post-rest loop (source lines 262-284), including the source's
`i += j` index progression and the unconditional bail-out on a missing
element. -/
def postRestLoop (input : List Value) (opts : ParseOptions) :
    List P → Nat → Nat → List PErr → List Value → Bool → TupleStep
  | [], _, i, es, out, isLeft => .cont es out isLeft i
  | p :: ps, j, i, es, out, isLeft =>
    let i2 := i + j
    if input.length < i2 + 1 then .early (.failure (es ++ [.index i2 [.missing]]))
    else
      match p (jsIndex input i2) opts with
      | .failure errs =>
        if opts.allErrors then
          postRestLoop input opts ps (j + 1) i2 (es ++ [.index i2 errs]) out true
        else .early (.failure (es ++ [.index i2 errs]))
      | .warning ws v =>
        postRestLoop input opts ps (j + 1) i2 (es ++ [.index i2 ws]) (out ++ [v]) isLeft
      | .success v => postRestLoop input opts ps (j + 1) i2 es (out ++ [v]) isLeft

/-- The Tuple unexpected-indexes loop (source lines 289-303); `n` counts the
remaining iterations of `for (; i < input.length; i++)`. -/
def unexpectedIdxLoop (input : List Value) (opts : ParseOptions) :
    Nat → Nat → List PErr → List Value → Bool → TupleStep
  | 0, i, es, out, isLeft => .cont es out isLeft i
  | n + 1, i, es, out, isLeft =>
    let e := PErr.index i [.unexpected (jsIndex input i)]
    if opts.isUnexpectedAllowed then unexpectedIdxLoop input opts n (i + 1) (es ++ [e]) out isLeft
    else if opts.allErrors then unexpectedIdxLoop input opts n (i + 1) (es ++ [e]) out true
    else .early (.failure (es ++ [e]))

/-- Final result assembly of the Tuple parser (source lines 309-311). -/
def mkTupleResult (es : List PErr) (out : List Value) (isLeft : Bool) : PR :=
  if es.isEmpty then .success (.arr out)
  else if isLeft then .failure es
  else .warning es (.arr out)

/-- The compiled Tuple parser (source lines 185-313). -/
def tupleParse (eps : List (P × Bool)) (rp : Option (P × List P)) : P := fun u opts =>
  match u with
  | .arr input =>
    match elemsLoop input opts eps 0 [] [] false with
    | .early r => r
    | .cont es out isLeft i =>
      match rp with
      | some (head, tail) =>
        match restLoop input opts head ((input.length - tail.length) - i) i es out isLeft with
        | .early r => r
        | .cont es out isLeft i =>
          match postRestLoop input opts tail 0 i es out isLeft with
          | .early r => r
          | .cont es out isLeft _ => mkTupleResult es out isLeft
      | none =>
        match unexpectedIdxLoop input opts (input.length - i) i es out isLeft with
        | .early r => r
        | .cont es out isLeft _ => mkTupleResult es out isLeft
  | _ => .failure [.type unknownArray u]

/-- The TypeLiteral property-signatures loop (source lines 337-370). -/
def propsLoop (input : List (String × Value)) (opts : ParseOptions) :
    List (String × P × Bool) → List PErr → List (String × Value) → Bool → RecordStep
  | [], es, out, isLeft => .cont es out isLeft
  | (name, p, isOpt) :: ps, es, out, isLeft =>
    if hasOwn input name then
      match p (jsGetKey input name) opts with
      | .failure errs =>
        if opts.allErrors then propsLoop input opts ps (es ++ [.key name errs]) out true
        else .early (.failure (es ++ [.key name errs]))
      | .warning ws v =>
        propsLoop input opts ps (es ++ [.key name ws]) (setKey out name v) isLeft
      | .success v => propsLoop input opts ps es (setKey out name v) isLeft
    else
      if isOpt then propsLoop input opts ps es out isLeft
      else if opts.allErrors then propsLoop input opts ps (es ++ [.key name [.missing]]) out true
      else .early (.failure [.key name [.missing]])

/-- The per-signature key loop of the TypeLiteral index-signature branch
(source lines 379-415): parse the key with the parameter parser, then the
value with the value parser. -/
def iSigKeysLoop (input : List (String × Value)) (opts : ParseOptions) (paramP typeP : P) :
    List String → List PErr → List (String × Value) → Bool → RecordStep
  | [], es, out, isLeft => .cont es out isLeft
  | k :: ks, es, out, isLeft =>
    match paramP (.str k) opts with
    | .failure errs =>
      if opts.allErrors then iSigKeysLoop input opts paramP typeP ks (es ++ [.key k errs]) out true
      else .early (.failure (es ++ [.key k errs]))
    | .warning ws _ =>
      match typeP (jsGetKey input k) opts with
      | .failure errs =>
        if opts.allErrors then
          iSigKeysLoop input opts paramP typeP ks (es ++ [.key k ws] ++ [.key k errs]) out true
        else .early (.failure (es ++ [.key k ws] ++ [.key k errs]))
      | .warning ws2 v =>
        iSigKeysLoop input opts paramP typeP ks (es ++ [.key k ws] ++ [.key k ws2])
          (setKey out k v) isLeft
      | .success v =>
        iSigKeysLoop input opts paramP typeP ks (es ++ [.key k ws]) (setKey out k v) isLeft
    | .success _ =>
      match typeP (jsGetKey input k) opts with
      | .failure errs =>
        if opts.allErrors then iSigKeysLoop input opts paramP typeP ks (es ++ [.key k errs]) out true
        else .early (.failure (es ++ [.key k errs]))
      | .warning ws2 v =>
        iSigKeysLoop input opts paramP typeP ks (es ++ [.key k ws2]) (setKey out k v) isLeft
      | .success v => iSigKeysLoop input opts paramP typeP ks es (setKey out k v) isLeft

/-- The TypeLiteral index-signatures loop (source lines 374-416), one pass
per signature. -/
def iSigsLoop (input : List (String × Value)) (opts : ParseOptions) :
    List ((P × P) × AST) → List PErr → List (String × Value) → Bool → RecordStep
  | [], es, out, isLeft => .cont es out isLeft
  | ((paramP, typeP), paramAst) :: sigs, es, out, isLeft =>
    match iSigKeysLoop input opts paramP typeP (getKeysForIndexSignature input paramAst)
        es out isLeft with
    | .early r => .early r
    | .cont es out isLeft => iSigsLoop input opts sigs es out isLeft

/-- The TypeLiteral unexpected-keys loop (source lines 421-437). -/
def unexpectedKeysLoop (input : List (String × Value)) (opts : ParseOptions)
    (expected : List String) :
    List String → List PErr → List (String × Value) → Bool → RecordStep
  | [], es, out, isLeft => .cont es out isLeft
  | k :: ks, es, out, isLeft =>
    if expected.contains k then unexpectedKeysLoop input opts expected ks es out isLeft
    else
      let e := PErr.key k [.unexpected (jsGetKey input k)]
      if opts.isUnexpectedAllowed then unexpectedKeysLoop input opts expected ks (es ++ [e]) out isLeft
      else if opts.allErrors then unexpectedKeysLoop input opts expected ks (es ++ [e]) out true
      else .early (.failure (es ++ [e]))

/-- Final result assembly of the TypeLiteral parser (source lines 443-445). -/
def mkRecordResult (es : List PErr) (out : List (String × Value)) (isLeft : Bool) : PR :=
  if es.isEmpty then .success (.obj out)
  else if isLeft then .failure es
  else .warning es (.obj out)

/-- The compiled TypeLiteral parser (source lines 323-447); only reached when
the node has at least one property or index signature. -/
def recordParse (pps : List (String × P × Bool)) (ips : List ((P × P) × AST))
    (expected : List String) : P := fun u opts =>
  match u with
  | .obj input =>
    match propsLoop input opts pps [] [] false with
    | .early r => r
    | .cont es out isLeft =>
      match ips with
      | _ :: _ =>
        match iSigsLoop input opts ips es out isLeft with
        | .early r => r
        | .cont es out isLeft => mkRecordResult es out isLeft
      | [] =>
        match unexpectedKeysLoop input opts expected (ownKeys input) es out isLeft with
        | .early r => r
        | .cont es out isLeft => mkRecordResult es out isLeft
  | _ => .failure [.type unknownRecord u]

/-- The Union branch loop (source lines 452-484): first success returns
immediately; a warning is kept as candidate when it has strictly fewer
unexpected-key/index diagnostics than the current candidate; failures are
collected wrapped in `Member`. -/
def unionLoop (u : Value) (opts : ParseOptions) :
    List P → List PErr → Option (List PErr × Value) → PR
  | [], es, cand =>
    match cand with
    | some (ws, v) => .warning ws v
    | none => if es.isEmpty then .failure [.type .neverKeyword u] else .failure es
  | p :: ps, es, cand =>
    match p u opts with
    | .success v => .success v
    | .warning ws v =>
      match cand with
      | none => unionLoop u opts ps es (some (ws, v))
      | some (cws, cv) =>
        if (cws.filter hasUnexpectedError).length > (ws.filter hasUnexpectedError).length then
          unionLoop u opts ps es (some (ws, v))
        else unionLoop u opts ps es (some (cws, cv))
    | .failure errs => unionLoop u opts ps (es ++ [.member errs]) cand

mutual
/-- The interpreter `go` of `parserFor` (source lines 120-539), compiled for
a fixed direction. Each container case first compiles its children's parsers
and then closes over them, as the source does. -/
def go (dir : Direction) : AST → P
  | .literal v => fromRefinement (fun u => vEq u v) (fun u => .equal v u)
  | .uniqueSymbol s => fromRefinement (fun u => vEq u (.sym s)) (fun u => .equal (.sym s) u)
  | .undefinedKeyword => fromRefinement isUndefinedB (fun u => .type .undefinedKeyword u)
  | .voidKeyword => fromRefinement isUndefinedB (fun u => .type .voidKeyword u)
  | .neverKeyword => fun u _ => .failure [.type .neverKeyword u]
  | .unknownKeyword => fun u _ => .success u
  | .anyKeyword => fun u _ => .success u
  | .stringKeyword => fromRefinement isStringB (fun u => .type .stringKeyword u)
  | .numberKeyword => fromRefinement isNumberB (fun u => .type .numberKeyword u)
  | .booleanKeyword => fromRefinement isBooleanB (fun u => .type .booleanKeyword u)
  | .bigIntKeyword => fun u _ =>
    match u with
    | .bigint n => .success (.bigint n)
    | .str s =>
      match jsBigIntOfString s with
      | some n => .success (.bigint n)
      | none => .failure [.transform primitive .bigIntKeyword (.str s)]
    | .num n => .success (.bigint n)
    | .bool b => .success (.bigint (if b then 1 else 0))
    | v => .failure [.type primitive v]
  | .symbolKeyword => fromRefinement isSymbolB (fun u => .type .symbolKeyword u)
  | .objectKeyword => fromRefinement isObjectB (fun u => .type .objectKeyword u)
  | .tuple els rest _ => tupleParse (goElems dir els) (goRest dir rest)
  | .typeLiteral [] [] =>
    fromRefinement isNotNullB (fun u => .type (.typeLiteral [] []) u)
  | .typeLiteral props isigs =>
    recordParse (goProps dir props) (goISigs dir isigs) (props.map Prod.fst)
  | .union ts => fun u opts => unionLoop u opts (goList dir ts) [] none
  | .enums l => fun u _ =>
    if l.any (fun p => vEq p.2 u) then .success u else .failure [.type (.enums l) u]
  | .refinement frm dec => fun u opts => prFlatMap (go dir frm u opts) (evalStep dec)
  | .transform frm tgt dec enc =>
    match dir with
    | .decoder => fun u opts => prFlatMap (go dir frm u opts) (evalStep dec)
    | .guard => go dir tgt
    | .encoder => fun a opts => prFlatMap (evalStep enc a) (fun a2 => go dir frm a2 opts)
termination_by structural x => x

def goElems (dir : Direction) : List (AST × Bool) → List (P × Bool)
  | [] => []
  | (a, b) :: tl => (go dir a, b) :: goElems dir tl
termination_by structural x => x

def goRest (dir : Direction) : Option (AST × List AST) → Option (P × List P)
  | none => none
  | some (h, t) => some (go dir h, goList dir t)
termination_by structural x => x

def goProps (dir : Direction) : List (String × AST × Bool) → List (String × P × Bool)
  | [] => []
  | (n, a, b) :: tl => (n, go dir a, b) :: goProps dir tl
termination_by structural x => x

def goISigs (dir : Direction) : List (AST × AST) → List ((P × P) × AST)
  | [] => []
  | (param, ty) :: tl => ((go dir param, go dir ty), param) :: goISigs dir tl
termination_by structural x => x

def goList (dir : Direction) : List AST → List P
  | [] => []
  | a :: tl => go dir a :: goList dir tl
termination_by structural x => x
end

/-- `decode` (source lines 54-56). -/
def decode (ast : AST) : Value → ParseOptions → PR := go .decoder ast

/-- `is` (source lines 75-77): guard-direction parse, `true` iff not a
failure. -/
def is (ast : AST) (input : Value) (opts : ParseOptions) : Bool :=
  !(isFailureB (go .guard ast input opts))

/-- `encode` (source lines 95-97). -/
def encodeVal (ast : AST) : Value → ParseOptions → PR := go .encoder ast

/-! ### Spec-side descriptions

The following definitions restate the traversal policy in the words of the
specification (§4.3, §4.4, §7): each position of a container is classified
independently of the others, and a separate driver walks the resulting
outcome list, short-circuiting or accumulating according to the options.
The claim theorems equate the compiled parsers with these drivers. -/

/-- Spec-side classification of one position: skipped optional absence,
missing required absence, fatal parse, warning parse, clean parse, or an
unexpected extra position. -/
inductive Outcome where
  | skip
  | miss
  | fail (es : List PErr)
  | warn (es : List PErr) (v : Value)
  | ok (v : Value)
  | unex (v : Value)

/-- Classify a parse result as an outcome. -/
def classify : PR → Outcome
  | .failure es => .fail es
  | .warning es v => .warn es v
  | .success v => .ok v

/-- Outcome of one tuple element position (§4.4 Tuple step 2), computed
independently of every other position. -/
def positionOutcome (input : List Value) (opts : ParseOptions) (i : Nat) : P × Bool → Outcome
  | (p, isOpt) =>
    if input.length < i + 1 then (if isOpt then .skip else .miss)
    else classify (p (jsIndex input i) opts)

/-- Outcomes of the element positions, with their absolute indexes. -/
def elemOutcomes (input : List Value) (opts : ParseOptions) :
    List (P × Bool) → Nat → List (Nat × Outcome)
  | [], _ => []
  | e :: tl, i => (i, positionOutcome input opts i e) :: elemOutcomes input opts tl (i + 1)

/-- Outcomes of `n` consecutive rest positions starting at index `i`
(§4.4 Tuple step 3, the variadic region). -/
def restOutcomes (input : List Value) (opts : ParseOptions) (p : P) :
    Nat → Nat → List (Nat × Outcome)
  | 0, _ => []
  | n + 1, i => (i, classify (p (jsIndex input i) opts)) :: restOutcomes input opts p n (i + 1)

/-- Outcomes of `n` unexpected extra positions starting at index `i`
(§4.4 Tuple step 4). -/
def extraOutcomes (input : List Value) : Nat → Nat → List (Nat × Outcome)
  | 0, _ => []
  | n + 1, i => (i, Outcome.unex (jsIndex input i)) :: extraOutcomes input n (i + 1)

/-- Spec-side driver for a tuple parse without `allErrors` (§4.3 amended):
the first fatal outcome short-circuits with `Failure`; for an invalid
position the earlier warnings are attached before the fatal error, but a
missing required position is returned alone, discarding earlier warnings. -/
def specShort (allow : Bool) : List (Nat × Outcome) → List PErr → List Value → PR
  | [], ws, out => if ws.isEmpty then .success (.arr out) else .warning ws (.arr out)
  | (i, o) :: tl, ws, out =>
    match o with
    | .skip => specShort allow tl ws out
    | .miss => .failure [.index i [.missing]]
    | .fail es => .failure (ws ++ [.index i es])
    | .warn es v => specShort allow tl (ws ++ [.index i es]) (out ++ [v])
    | .ok v => specShort allow tl ws (out ++ [v])
    | .unex v =>
      if allow then specShort allow tl (ws ++ [.index i [.unexpected v]]) out
      else .failure (ws ++ [.index i [.unexpected v]])

/-- Spec-side driver for a tuple parse with `allErrors` (§4.3): every
position is visited, every error accumulated; the result is `Failure` when
at least one error was fatal, `Warning` when only warnings were collected,
`Success` when none. -/
def specAll (allow : Bool) : List (Nat × Outcome) → List PErr → List Value → Bool → PR
  | [], es, out, isLeft =>
    if es.isEmpty then .success (.arr out)
    else if isLeft then .failure es
    else .warning es (.arr out)
  | (i, o) :: tl, es, out, isLeft =>
    match o with
    | .skip => specAll allow tl es out isLeft
    | .miss => specAll allow tl (es ++ [.index i [.missing]]) out true
    | .fail es2 => specAll allow tl (es ++ [.index i es2]) out true
    | .warn es2 v => specAll allow tl (es ++ [.index i es2]) (out ++ [v]) isLeft
    | .ok v => specAll allow tl es (out ++ [v]) isLeft
    | .unex v =>
      if allow then specAll allow tl (es ++ [.index i [.unexpected v]]) out isLeft
      else specAll allow tl (es ++ [.index i [.unexpected v]]) out true

/-- Outcome of one property signature (§4.4 TypeLiteral step 2), computed
independently of every other key. -/
def propOutcome (input : List (String × Value)) (opts : ParseOptions) :
    String × P × Bool → Outcome
  | (name, p, isOpt) =>
    if hasOwn input name then classify (p (jsGetKey input name) opts)
    else if isOpt then .skip else .miss

/-- Outcomes of the property signatures, with their names. -/
def propOutcomes (input : List (String × Value)) (opts : ParseOptions) :
    List (String × P × Bool) → List (String × Outcome)
  | [] => []
  | e :: tl => (e.1, propOutcome input opts e) :: propOutcomes input opts tl

/-- Outcomes of the unexpected own keys (§4.4 TypeLiteral step 4): every
own key outside the expected set, in enumeration order. -/
def unexpectedKeyOutcomes (input : List (String × Value)) (expected : List String) :
    List String → List (String × Outcome)
  | [] => []
  | k :: ks =>
    if expected.contains k then unexpectedKeyOutcomes input expected ks
    else (k, Outcome.unex (jsGetKey input k)) :: unexpectedKeyOutcomes input expected ks

/-- Spec-side driver for a record parse without `allErrors`, the key-wrapped
analogue of `specShort` (missing required keys likewise return alone). -/
def specShortRec (allow : Bool) :
    List (String × Outcome) → List PErr → List (String × Value) → PR
  | [], ws, out => if ws.isEmpty then .success (.obj out) else .warning ws (.obj out)
  | (k, o) :: tl, ws, out =>
    match o with
    | .skip => specShortRec allow tl ws out
    | .miss => .failure [.key k [.missing]]
    | .fail es => .failure (ws ++ [.key k es])
    | .warn es v => specShortRec allow tl (ws ++ [.key k es]) (setKey out k v)
    | .ok v => specShortRec allow tl ws (setKey out k v)
    | .unex v =>
      if allow then specShortRec allow tl (ws ++ [.key k [.unexpected v]]) out
      else .failure (ws ++ [.key k [.unexpected v]])

/-- Spec-side driver for a record parse with `allErrors`, the key-wrapped
analogue of `specAll`. -/
def specAllRec (allow : Bool) :
    List (String × Outcome) → List PErr → List (String × Value) → Bool → PR
  | [], es, out, isLeft =>
    if es.isEmpty then .success (.obj out)
    else if isLeft then .failure es
    else .warning es (.obj out)
  | (k, o) :: tl, es, out, isLeft =>
    match o with
    | .skip => specAllRec allow tl es out isLeft
    | .miss => specAllRec allow tl (es ++ [.key k [.missing]]) out true
    | .fail es2 => specAllRec allow tl (es ++ [.key k es2]) out true
    | .warn es2 v => specAllRec allow tl (es ++ [.key k es2]) (setKey out k v) isLeft
    | .ok v => specAllRec allow tl es (setKey out k v) isLeft
    | .unex v =>
      if allow then specAllRec allow tl (es ++ [.key k [.unexpected v]]) out isLeft
      else specAllRec allow tl (es ++ [.key k [.unexpected v]]) out true

/-- Errors contributed by a key outcome list (every visited position
contributes its diagnostics, in traversal order). -/
def outErrsRec : List (String × Outcome) → List PErr
  | [] => []
  | (k, o) :: tl =>
    (match o with
     | .skip => []
     | .miss => [.key k [.missing]]
     | .fail es => [.key k es]
     | .warn es _ => [.key k es]
     | .ok _ => []
     | .unex v => [.key k [.unexpected v]]) ++ outErrsRec tl

/-- Whether a key outcome list contains a fatal outcome (missing, invalid,
or an unexpected key when not tolerated). -/
def anyFatalRec (allow : Bool) : List (String × Outcome) → Bool
  | [] => false
  | (_, o) :: tl =>
    (match o with
     | .miss => true
     | .fail _ => true
     | .unex _ => !allow
     | _ => false) || anyFatalRec allow tl

/-- The number of unexpected-key/index diagnostics of a warning (the union
candidate comparison measure, source lines 465-469). -/
def unexpectedCount : PR → Nat
  | .warning es _ => (es.filter hasUnexpectedError).length
  | _ => 0

/-- The first element of the list attaining the minimal measure: a later
element replaces the current best only when strictly smaller, so ties are
broken by first occurrence. -/
def firstMinBy (f : PR → Nat) : List PR → Option PR
  | [] => none
  | x :: xs =>
    match firstMinBy f xs with
    | none => some x
    | some y => if f y < f x then some y else some x

/-- The `Member`-wrapped errors of a failed branch. -/
def memberOf : PR → Option PErr
  | .failure es => some (.member es)
  | _ => none

mutual
/-- Whether an AST contains no `Transform` node anywhere. -/
def tf : AST → Bool
  | .tuple els rest _ => tfElems els && tfRest rest
  | .typeLiteral props isigs => tfProps props && tfISigs isigs
  | .union ts => tfList ts
  | .refinement frm _ => tf frm
  | .transform _ _ _ _ => false
  | _ => true
termination_by structural x => x

def tfElems : List (AST × Bool) → Bool
  | [] => true
  | (a, _) :: tl => tf a && tfElems tl
termination_by structural x => x

def tfRest : Option (AST × List AST) → Bool
  | none => true
  | some (h, t) => tf h && tfList t
termination_by structural x => x

def tfProps : List (String × AST × Bool) → Bool
  | [] => true
  | (_, a, _) :: tl => tf a && tfProps tl
termination_by structural x => x

def tfISigs : List (AST × AST) → Bool
  | [] => true
  | (a, b) :: tl => tf a && tf b && tfISigs tl
termination_by structural x => x

def tfList : List AST → Bool
  | [] => true
  | a :: tl => tf a && tfList tl
termination_by structural x => x
end

/-- The outputs of the element positions when every one of them parses to a
clean success (`none` otherwise). -/
def elemsOutputs (input : List Value) (opts : ParseOptions) :
    List (P × Bool) → Nat → Option (List Value)
  | [], _ => some []
  | (p, _) :: tl, i =>
    match p (jsIndex input i) opts with
    | .success v => (elemsOutputs input opts tl (i + 1)).map (v :: ·)
    | _ => none

/-- The usable value of a result, when there is one. -/
def resultValue : PR → Option Value
  | .failure _ => none
  | .warning _ v => some v
  | .success v => some v

/-- One step of the union candidate update (source lines 463-471): a
warning replaces the current candidate only when it has strictly fewer
unexpected-key/index diagnostics; every other result leaves it unchanged. -/
def candUpd (cand : Option (List PErr × Value)) (r : PR) : Option (List PErr × Value) :=
  match r with
  | .warning ws v =>
    match cand with
    | none => some (ws, v)
    | some (cws, cv) =>
      if (cws.filter hasUnexpectedError).length > (ws.filter hasUnexpectedError).length
      then some (ws, v) else some (cws, cv)
  | _ => cand

/-- The candidate after scanning a list of branch results. -/
def candAfter (cand : Option (List PErr × Value)) (rs : List PR) : Option (List PErr × Value) :=
  rs.foldl candUpd cand

/-- View of a warning result as a candidate pair. -/
def warnPair : PR → Option (List PErr × Value)
  | .warning es v => some (es, v)
  | _ => none

/-- Assembly of a union result from the branch results still to scan and the
accumulated member errors and warning candidate. -/
def unionAssemble (u : Value) (es : List PErr) (cand : Option (List PErr × Value))
    (rs : List PR) : PR :=
  match rs.find? isSuccessB with
  | some r => r
  | none =>
    match candAfter cand rs with
    | some (ws, v) => .warning ws v
    | none =>
      let ms := es ++ rs.filterMap memberOf
      if ms.isEmpty then .failure [.type .neverKeyword u] else .failure ms

/-- Errors of a record-loop state. -/
def stepErrs : RecordStep → List PErr
  | .early r => errsOf r
  | .cont es _ _ => es

/-- Output keys of a record-loop state. -/
def stepOutKeys : RecordStep → List String
  | .early _ => []
  | .cont _ out _ => out.map Prod.fst

/-- Errors contributed by an index outcome list, in traversal order. -/
def outErrsT : List (Nat × Outcome) → List PErr
  | [] => []
  | (i, o) :: tl =>
    (match o with
     | .skip => []
     | .miss => [.index i [.missing]]
     | .fail es => [.index i es]
     | .warn es _ => [.index i es]
     | .ok _ => []
     | .unex v => [.index i [.unexpected v]]) ++ outErrsT tl

/-- Output values contributed by an index outcome list (only usable parsed
values enter the output; extras never do). -/
def outVals : List (Nat × Outcome) → List Value
  | [] => []
  | (_, o) :: tl =>
    (match o with
     | .warn _ v => [v]
     | .ok v => [v]
     | _ => []) ++ outVals tl

/-- Whether an index outcome list contains a fatal outcome. -/
def anyFatalT (allow : Bool) : List (Nat × Outcome) → Bool
  | [] => false
  | (_, o) :: tl =>
    (match o with
     | .miss => true
     | .fail _ => true
     | .unex _ => !allow
     | _ => false) || anyFatalT allow tl

/-- Output key/value pairs contributed by a key outcome list. -/
def outKVsRec : List (String × Outcome) → List (String × Value)
  | [] => []
  | (k, o) :: tl =>
    (match o with
     | .warn _ v => [(k, v)]
     | .ok v => [(k, v)]
     | _ => []) ++ outKVsRec tl

/-- Write a batch of key/value pairs into an output object, left to right. -/
def applySets (out : List (String × Value)) (kvs : List (String × Value)) :
    List (String × Value) :=
  kvs.foldl (fun o kv => setKey o kv.1 kv.2) out

/-- Assemble a tuple-loop state into the final result. -/
def finishT : TupleStep → PR
  | .early r => r
  | .cont es out isLeft _ => mkTupleResult es out isLeft

/-- Continue a tuple-loop state into the unexpected-indexes loop (the
`rest`-absent branch of the Tuple parser). -/
def contUnex (input : List Value) (opts : ParseOptions) : TupleStep → PR
  | .early r => r
  | .cont es out isLeft i =>
    finishT (unexpectedIdxLoop input opts (input.length - i) i es out isLeft)

/-- Continue a tuple-loop state into the rest loop for a rest element with
an empty post-rest tail. -/
def contRestNil (input : List Value) (opts : ParseOptions) (head : P) : TupleStep → PR
  | .early r => r
  | .cont es out isLeft i =>
    finishT (restLoop input opts head (input.length - i) i es out isLeft)

/-- Assemble a record-loop state into the final result. -/
def finishR : RecordStep → PR
  | .early r => r
  | .cont es out isLeft => mkRecordResult es out isLeft

/-- Continue a record-loop state into the unexpected-keys loop (the branch
of the TypeLiteral parser with no index signatures). -/
def contUnexKeys (input : List (String × Value)) (opts : ParseOptions)
    (expected : List String) : RecordStep → PR
  | .early r => r
  | .cont es out isLeft =>
    finishR (unexpectedKeysLoop input opts expected (ownKeys input) es out isLeft)

/-- Continue a record-loop state into the index-signatures loop (the branch
of the TypeLiteral parser with at least one index signature). -/
def contISigs (input : List (String × Value)) (opts : ParseOptions)
    (ips : List ((P × P) × AST)) : RecordStep → PR
  | .early r => r
  | .cont es out isLeft => finishR (iSigsLoop input opts ips es out isLeft)

/-! ### Union branch selection -/

lemma unionAssemble_success (u : Value) (es : List PErr) (cand : Option (List PErr × Value))
    (v : Value) (rs : List PR) :
    unionAssemble u es cand (.success v :: rs) = .success v := by
  simp [unionAssemble, List.find?, isSuccessB]

lemma unionAssemble_warning (u : Value) (es : List PErr) (cand : Option (List PErr × Value))
    (ws : List PErr) (v : Value) (rs : List PR) :
    unionAssemble u es cand (.warning ws v :: rs) =
      unionAssemble u es (candUpd cand (.warning ws v)) rs := by
  simp only [unionAssemble, List.find?, isSuccessB, candAfter, List.foldl, List.filterMap,
    memberOf]

lemma unionAssemble_failure (u : Value) (es : List PErr) (cand : Option (List PErr × Value))
    (errs : List PErr) (rs : List PR) :
    unionAssemble u es cand (.failure errs :: rs) =
      unionAssemble u (es ++ [.member errs]) cand rs := by
  simp only [unionAssemble, List.find?, isSuccessB, candAfter, List.foldl, List.filterMap,
    memberOf, candUpd]
  simp [List.append_assoc]

/-- The union loop equals the assembly over the list of branch results. -/
lemma unionLoop_assemble (u : Value) (opts : ParseOptions) :
    ∀ (ps : List P) (es : List PErr) (cand : Option (List PErr × Value)),
      unionLoop u opts ps es cand = unionAssemble u es cand (ps.map (fun p => p u opts)) := by
  intro ps
  induction ps with
  | nil =>
    intro es cand
    cases cand with
    | none =>
      simp [unionLoop, unionAssemble, candAfter]
      rw [List.append_nil]
    | some c => simp [unionLoop, unionAssemble, candAfter]
  | cons p ps ih =>
    intro es cand
    cases hr : p u opts with
    | success v => simp only [List.map, hr, unionLoop, unionAssemble_success]
    | warning ws v =>
      cases cand with
      | none => simp only [List.map, hr, unionLoop, unionAssemble_warning, candUpd, ih]
      | some c =>
        simp only [List.map, hr, unionLoop, unionAssemble_warning, candUpd, ih]
        split <;> rfl
    | failure errs => simp only [List.map, hr, unionLoop, unionAssemble_failure, ih]

lemma candUpd_nonwarning (cand : Option (List PErr × Value)) (r : PR)
    (h : isWarningB r = false) : candUpd cand r = cand := by
  cases r <;> simp_all [candUpd, isWarningB]

lemma candAfter_filter (rs : List PR) :
    ∀ cand, candAfter cand rs = candAfter cand (rs.filter isWarningB) := by
  induction rs with
  | nil => intro cand; rfl
  | cons r rs ih =>
    intro cand
    cases hw : isWarningB r with
    | true => simp [candAfter, List.foldl, hw, List.filter] at ih ⊢; exact ih _
    | false =>
      simp [candAfter, List.foldl, hw, List.filter, candUpd_nonwarning _ _ hw] at ih ⊢
      exact ih _

lemma firstMinBy_mem (f : PR → Nat) :
    ∀ (l : List PR) (y : PR), firstMinBy f l = some y → y ∈ l := by
  intro l
  induction l with
  | nil => intro y h; simp [firstMinBy] at h
  | cons x xs ih =>
    intro y h
    simp only [firstMinBy] at h
    cases hm : firstMinBy f xs with
    | none => rw [hm] at h; simp at h; simp [h]
    | some z =>
      rw [hm] at h
      by_cases hc : f z < f x
      · simp [hc] at h; right; exact ih _ (h ▸ hm)
      · simp [hc] at h; simp [h]

lemma foldl_candUpd_some (l : List PR) :
    ∀ (h : ∀ r ∈ l, isWarningB r = true) (c : List PErr × Value),
      List.foldl candUpd (some c) l =
        (match firstMinBy unexpectedCount l with
         | none => some c
         | some y =>
           if unexpectedCount y < (c.1.filter hasUnexpectedError).length then warnPair y
           else some c) := by
  induction l with
  | nil => intro _ c; rfl
  | cons y ys ih =>
    intro h c
    have hy := h y (List.mem_cons_self _ _)
    cases y with
    | warning ws v =>
      have hys : ∀ r ∈ ys, isWarningB r = true := fun r hr => h r (List.mem_cons_of_mem _ hr)
      simp only [List.foldl, candUpd]
      by_cases hrep : (c.1.filter hasUnexpectedError).length >
          (ws.filter hasUnexpectedError).length
      · simp only [hrep, if_pos, ih hys]
        cases hm : firstMinBy unexpectedCount ys with
        | none =>
          simp only [firstMinBy, hm]
          have h5 : unexpectedCount (.warning ws v) < (c.1.filter hasUnexpectedError).length := hrep
          simp only [unexpectedCount] at h5
          simp [unexpectedCount, h5, warnPair]
        | some z =>
          simp only [firstMinBy, hm]
          by_cases hz : unexpectedCount z < unexpectedCount (.warning ws v)
          · have h1 : unexpectedCount z < (c.1.filter hasUnexpectedError).length := by
              have h2 : unexpectedCount (.warning ws v) <
                  (c.1.filter hasUnexpectedError).length := hrep
              omega
            simp only [unexpectedCount] at hz h1 ⊢
            simp [hz, h1]
          · have h2 : unexpectedCount (.warning ws v) <
                (c.1.filter hasUnexpectedError).length := hrep
            simp only [unexpectedCount] at hz h2 ⊢
            simp [hz, h2, warnPair]
      · simp only [hrep, if_neg, not_false_iff, ih hys]
        cases hm : firstMinBy unexpectedCount ys with
        | none =>
          simp only [firstMinBy, hm]
          have : ¬ unexpectedCount (.warning ws v) < (c.1.filter hasUnexpectedError).length := by
            simp only [unexpectedCount]; omega
          simp only [unexpectedCount] at this ⊢
          simp [this]
        | some z =>
          simp only [firstMinBy, hm]
          by_cases hz : unexpectedCount z < unexpectedCount (.warning ws v)
          · simp only [unexpectedCount] at hz ⊢
            simp [hz]
          · have h3 : ¬ unexpectedCount z < (c.1.filter hasUnexpectedError).length := by
              simp only [unexpectedCount] at hz ⊢
              omega
            have h4 : ¬ unexpectedCount (.warning ws v) <
                (c.1.filter hasUnexpectedError).length := by
              simp only [unexpectedCount]; omega
            simp only [unexpectedCount] at hz h3 h4 ⊢
            simp [hz, h3, h4]
    | success v => simp [isWarningB] at hy
    | failure errs => simp [isWarningB] at hy

lemma foldl_candUpd_none (l : List PR) (h : ∀ r ∈ l, isWarningB r = true) :
    List.foldl candUpd none l = (firstMinBy unexpectedCount l).bind warnPair := by
  cases l with
  | nil => rfl
  | cons y ys =>
    have hy := h y (List.mem_cons_self _ _)
    have hys : ∀ r ∈ ys, isWarningB r = true := fun r hr => h r (List.mem_cons_of_mem _ hr)
    cases y with
    | warning ws v =>
      simp only [List.foldl, candUpd, foldl_candUpd_some ys hys]
      cases hm : firstMinBy unexpectedCount ys with
      | none => simp [firstMinBy, hm, warnPair]
      | some z =>
        simp only [firstMinBy, hm]
        by_cases hz : unexpectedCount z < unexpectedCount (.warning ws v)
        · simp only [unexpectedCount] at hz ⊢
          simp [hz]
        · simp only [unexpectedCount] at hz ⊢
          simp [hz, warnPair]
    | success v => simp [isWarningB] at hy
    | failure errs => simp [isWarningB] at hy

/-- C5 (confirmed). For every Union node and input, branches are tried in
declaration order: the first branch yielding Success is returned
immediately; otherwise among the branches yielding Warning the candidate
with the fewest unexpected-key/index diagnostics is returned, ties broken
by first occurrence; otherwise, if at least one branch failed, the Failure
of the Member-wrapped branch errors is returned; otherwise
`Failure([Type(neverKeyword, input)])`. -/
theorem c5_union_selection (dir : Direction) (ts : List AST) (u : Value) (opts : ParseOptions) :
    go dir (.union ts) u opts =
      (let rs := (goList dir ts).map (fun p => p u opts)
       match rs.find? isSuccessB with
       | some r => r
       | none =>
         match firstMinBy unexpectedCount (rs.filter isWarningB) with
         | some w => w
         | none =>
           let ms := rs.filterMap memberOf
           if ms.isEmpty then .failure [.type .neverKeyword u] else .failure ms) := by
  have h0 : go dir (.union ts) u opts = unionLoop u opts (goList dir ts) [] none := rfl
  rw [h0, unionLoop_assemble]
  set rs := (goList dir ts).map (fun p => p u opts) with hrs
  cases hf : rs.find? isSuccessB with
  | some r => simp [unionAssemble, hf]
  | none =>
    have hfilter : ∀ r ∈ rs.filter isWarningB, isWarningB r = true :=
      fun r hr => (List.mem_filter.mp hr).2
    have h1 : candAfter none rs = (firstMinBy unexpectedCount (rs.filter isWarningB)).bind
        warnPair := by
      rw [candAfter_filter]
      exact foldl_candUpd_none _ hfilter
    simp only [unionAssemble, hf, h1]
    cases hm : firstMinBy unexpectedCount (rs.filter isWarningB) with
    | none => simp
    | some w =>
      have hw : isWarningB w = true := hfilter w (firstMinBy_mem _ _ _ hm)
      cases w with
      | warning ws v => simp [warnPair]
      | success v => simp [isWarningB] at hw
      | failure errs => simp [isWarningB] at hw

/-! ### Tuple traversal without `allErrors` (short-circuit) -/

/-- The unexpected-indexes loop followed by result assembly matches the
short-circuit driver on the extra-position outcomes. -/
lemma unexpectedIdxLoop_short (input : List Value) (opts : ParseOptions)
    (h : opts.allErrors = false) :
    ∀ (n i : Nat) (es : List PErr) (out : List Value),
      finishT (unexpectedIdxLoop input opts n i es out false) =
        specShort opts.isUnexpectedAllowed (extraOutcomes input n i) es out := by
  intro n
  induction n with
  | zero =>
    intro i es out
    simp [unexpectedIdxLoop, finishT, mkTupleResult, specShort, extraOutcomes]
  | succ n ih =>
    intro i es out
    cases ha : opts.isUnexpectedAllowed with
    | true => simp [unexpectedIdxLoop, ha, extraOutcomes, specShort, ih]
    | false => simp [unexpectedIdxLoop, ha, h, extraOutcomes, specShort, finishT]

/-- The elements loop composed with the unexpected-indexes loop matches the
short-circuit driver on element outcomes followed by extra outcomes. -/
lemma elemsLoop_short (input : List Value) (opts : ParseOptions)
    (h : opts.allErrors = false) :
    ∀ (eps : List (P × Bool)) (i : Nat) (es : List PErr) (out : List Value),
      contUnex input opts (elemsLoop input opts eps i es out false) =
        specShort opts.isUnexpectedAllowed
          (elemOutcomes input opts eps i ++
            extraOutcomes input (input.length - (i + eps.length)) (i + eps.length)) es out := by
  intro eps
  induction eps with
  | nil =>
    intro i es out
    simp only [elemsLoop, elemOutcomes, List.length_nil, Nat.add_zero, List.nil_append,
      contUnex]
    exact unexpectedIdxLoop_short input opts h _ _ _ _
  | cons e tl ih =>
    intro i es out
    obtain ⟨p, isOpt⟩ := e
    have e2 : i + (tl.length + 1) = (i + 1) + tl.length := by omega
    by_cases hmiss : input.length < i + 1
    · cases isOpt with
      | true =>
        have := ih (i + 1) es out
        simp only [elemsLoop, if_pos hmiss, if_true, elemOutcomes, positionOutcome,
          List.cons_append, specShort, List.length_cons, e2]
        exact this
      | false =>
        simp [elemsLoop, hmiss, h, elemOutcomes, positionOutcome, specShort, contUnex]
    · cases hp : p (jsIndex input i) opts with
      | failure errs =>
        simp [elemsLoop, hmiss, hp, h, elemOutcomes, positionOutcome, classify,
          specShort, contUnex]
      | warning ws v =>
        have := ih (i + 1) (es ++ [.index i ws]) (out ++ [v])
        simp only [elemsLoop, if_neg hmiss, hp, elemOutcomes, positionOutcome,
          classify, List.cons_append, specShort, List.length_cons, e2]
        exact this
      | success v =>
        have := ih (i + 1) es (out ++ [v])
        simp only [elemsLoop, if_neg hmiss, hp, elemOutcomes, positionOutcome,
          classify, List.cons_append, specShort, List.length_cons, e2]
        exact this

/-- The Tuple parser without rest element is the elements loop continued
into the unexpected-indexes loop. -/
lemma tupleParse_none (eps : List (P × Bool)) (input : List Value) (opts : ParseOptions) :
    tupleParse eps none (.arr input) opts =
      contUnex input opts (elemsLoop input opts eps 0 [] [] false) := by
  simp only [tupleParse]
  cases elemsLoop input opts eps 0 [] [] false with
  | early r => rfl
  | cont es out isLeft i => rfl

/-- `go` on a rest-free tuple, reduced to the loop composition. -/
lemma go_tuple_norest (dir : Direction) (els : List (AST × Bool)) (ro : Bool)
    (input : List Value) (opts : ParseOptions) :
    go dir (.tuple els none ro) (.arr input) opts =
      contUnex input opts (elemsLoop input opts (goElems dir els) 0 [] [] false) := by
  show tupleParse (goElems dir els) (goRest dir none) (.arr input) opts = _
  rw [goRest]
  exact tupleParse_none _ _ _

/-! ### Record traversal without `allErrors` (short-circuit) -/

/-- The unexpected-keys loop followed by result assembly matches the
short-circuit driver on the unexpected-key outcomes. -/
lemma unexpectedKeysLoop_short (input : List (String × Value)) (opts : ParseOptions)
    (expected : List String) (h : opts.allErrors = false) :
    ∀ (ks : List String) (es : List PErr) (out : List (String × Value)),
      finishR (unexpectedKeysLoop input opts expected ks es out false) =
        specShortRec opts.isUnexpectedAllowed (unexpectedKeyOutcomes input expected ks) es out := by
  intro ks
  induction ks with
  | nil =>
    intro es out
    simp [unexpectedKeysLoop, finishR, mkRecordResult, specShortRec, unexpectedKeyOutcomes]
  | cons k ks ih =>
    intro es out
    by_cases hk : k ∈ expected
    · have hc : expected.contains k = true := by simpa using hk
      simp [unexpectedKeysLoop, hc, hk, unexpectedKeyOutcomes, ih]
    · have hc : expected.contains k = false := by simpa using hk
      cases ha : opts.isUnexpectedAllowed with
      | true => simp [unexpectedKeysLoop, hc, hk, ha, unexpectedKeyOutcomes, specShortRec, ih]
      | false =>
        simp [unexpectedKeysLoop, hc, hk, ha, h, unexpectedKeyOutcomes, specShortRec, finishR]

/-- The property-signatures loop composed with the unexpected-keys loop
matches the short-circuit driver on property outcomes followed by
unexpected-key outcomes. -/
lemma propsLoop_short (input : List (String × Value)) (opts : ParseOptions)
    (expected : List String) (h : opts.allErrors = false) :
    ∀ (pps : List (String × P × Bool)) (es : List PErr) (out : List (String × Value)),
      contUnexKeys input opts expected (propsLoop input opts pps es out false) =
        specShortRec opts.isUnexpectedAllowed
          (propOutcomes input opts pps ++ unexpectedKeyOutcomes input expected (ownKeys input))
          es out := by
  intro pps
  induction pps with
  | nil =>
    intro es out
    simp only [propsLoop, propOutcomes, List.nil_append, contUnexKeys]
    exact unexpectedKeysLoop_short input opts expected h _ _ _
  | cons e tl ih =>
    intro es out
    obtain ⟨name, p, isOpt⟩ := e
    by_cases hown : hasOwn input name = true
    · cases hp : p (jsGetKey input name) opts with
      | failure errs =>
        simp [propsLoop, hown, hp, h, propOutcomes, propOutcome, classify, specShortRec,
          contUnexKeys]
      | warning ws v =>
        simp [propsLoop, hown, hp, propOutcomes, propOutcome, classify, specShortRec]
        exact ih (es ++ [.key name ws]) (setKey out name v)
      | success v =>
        simp [propsLoop, hown, hp, propOutcomes, propOutcome, classify, specShortRec]
        exact ih es (setKey out name v)
    · cases isOpt with
      | true =>
        simp [propsLoop, hown, propOutcomes, propOutcome, specShortRec]
        exact ih es out
      | false =>
        simp [propsLoop, hown, h, propOutcomes, propOutcome, specShortRec, contUnexKeys]

/-- The TypeLiteral parser without index signatures is the property loop
continued into the unexpected-keys loop. -/
lemma recordParse_nosigs (pps : List (String × P × Bool)) (expected : List String)
    (input : List (String × Value)) (opts : ParseOptions) :
    recordParse pps [] expected (.obj input) opts =
      contUnexKeys input opts expected (propsLoop input opts pps [] [] false) := by
  simp only [recordParse]
  cases propsLoop input opts pps [] [] false with
  | early r => rfl
  | cont es out isLeft => rfl

/-- `go` on a TypeLiteral with at least one property signature and no index
signatures, reduced to the loop composition. -/
lemma go_record_nosigs (dir : Direction) (p0 : String × AST × Bool)
    (props : List (String × AST × Bool)) (input : List (String × Value)) (opts : ParseOptions) :
    go dir (.typeLiteral (p0 :: props) []) (.obj input) opts =
      contUnexKeys input opts ((p0 :: props).map Prod.fst)
        (propsLoop input opts (goProps dir (p0 :: props)) [] [] false) := by
  show recordParse (goProps dir (p0 :: props)) (goISigs dir []) ((p0 :: props).map Prod.fst)
      (.obj input) opts = _
  rw [goISigs]
  exact recordParse_nosigs _ _ _ _

/-- C1 (corrected): without `allErrors`, a tuple or record parse
short-circuits at the first fatal outcome; an invalid position fails with
the earlier warnings attached before the fatal error, but a Missing
required tuple element or record key returns alone, discarding the earlier
warnings (the amendment). The parser equals the spec-side short-circuit
driver over the per-position outcomes. -/
theorem c1_short_circuit :
    (∀ (dir : Direction) (ro ua : Bool) (els : List (AST × Bool)) (input : List Value),
      go dir (.tuple els none ro) (.arr input) ⟨ua, false⟩ =
        specShort ua
          (elemOutcomes input ⟨ua, false⟩ (goElems dir els) 0 ++
            extraOutcomes input (input.length - (goElems dir els).length)
              (goElems dir els).length) [] []) ∧
    (∀ (dir : Direction) (ua : Bool) (p0 : String × AST × Bool)
      (props : List (String × AST × Bool)) (input : List (String × Value)),
      go dir (.typeLiteral (p0 :: props) []) (.obj input) ⟨ua, false⟩ =
        specShortRec ua
          (propOutcomes input ⟨ua, false⟩ (goProps dir (p0 :: props)) ++
            unexpectedKeyOutcomes input ((p0 :: props).map Prod.fst) (ownKeys input)) [] []) := by
  constructor
  · intro dir ro ua els input
    rw [go_tuple_norest, elemsLoop_short input ⟨ua, false⟩ rfl]
    norm_num
  · intro dir ua p0 props input
    rw [go_record_nosigs, propsLoop_short input ⟨ua, false⟩ _ rfl]

/-! ### Traversal with `allErrors` -/

lemma outErrsT_append (A B : List (Nat × Outcome)) :
    outErrsT (A ++ B) = outErrsT A ++ outErrsT B := by
  induction A with
  | nil => simp [outErrsT]
  | cons x tl ih => obtain ⟨i, o⟩ := x; simp [outErrsT, ih]

lemma outVals_append (A B : List (Nat × Outcome)) :
    outVals (A ++ B) = outVals A ++ outVals B := by
  induction A with
  | nil => simp [outVals]
  | cons x tl ih => obtain ⟨i, o⟩ := x; simp [outVals, ih]

lemma anyFatalT_append (allow : Bool) (A B : List (Nat × Outcome)) :
    anyFatalT allow (A ++ B) = (anyFatalT allow A || anyFatalT allow B) := by
  induction A with
  | nil => simp [anyFatalT]
  | cons x tl ih => obtain ⟨i, o⟩ := x; simp [anyFatalT, ih, Bool.or_assoc]

lemma outErrsRec_append (A B : List (String × Outcome)) :
    outErrsRec (A ++ B) = outErrsRec A ++ outErrsRec B := by
  induction A with
  | nil => simp [outErrsRec]
  | cons x tl ih => obtain ⟨k, o⟩ := x; simp [outErrsRec, ih]

lemma outKVsRec_append (A B : List (String × Outcome)) :
    outKVsRec (A ++ B) = outKVsRec A ++ outKVsRec B := by
  induction A with
  | nil => simp [outKVsRec]
  | cons x tl ih => obtain ⟨k, o⟩ := x; simp [outKVsRec, ih]

lemma anyFatalRec_append (allow : Bool) (A B : List (String × Outcome)) :
    anyFatalRec allow (A ++ B) = (anyFatalRec allow A || anyFatalRec allow B) := by
  induction A with
  | nil => simp [anyFatalRec]
  | cons x tl ih => obtain ⟨k, o⟩ := x; simp [anyFatalRec, ih, Bool.or_assoc]

lemma applySets_append (out : List (String × Value)) (A B : List (String × Value)) :
    applySets out (A ++ B) = applySets (applySets out A) B := by
  simp [applySets, List.foldl_append]

/-- Closed form of the `allErrors` tuple driver: every error, every usable
value and the fatality flag of the whole outcome list. -/
lemma specAll_closed (allow : Bool) :
    ∀ (A : List (Nat × Outcome)) (es : List PErr) (out : List Value) (b : Bool),
      specAll allow A es out b =
        mkTupleResult (es ++ outErrsT A) (out ++ outVals A) (b || anyFatalT allow A) := by
  intro A
  induction A with
  | nil =>
    intro es out b
    simp only [outErrsT, outVals, anyFatalT, List.append_nil, Bool.or_false]
    rfl
  | cons x tl ih =>
    intro es out b
    obtain ⟨i, o⟩ := x
    cases o with
    | skip => simp [specAll, outErrsT, outVals, anyFatalT, ih]
    | miss => simp [specAll, outErrsT, outVals, anyFatalT, ih, List.append_assoc]
    | fail es2 => simp [specAll, outErrsT, outVals, anyFatalT, ih, List.append_assoc]
    | warn es2 v => simp [specAll, outErrsT, outVals, anyFatalT, ih, List.append_assoc,
        Bool.or_assoc]
    | ok v => simp [specAll, outErrsT, outVals, anyFatalT, ih, List.append_assoc]
    | unex v =>
      cases allow with
      | true => simp [specAll, outErrsT, outVals, anyFatalT, ih, List.append_assoc]
      | false => simp [specAll, outErrsT, outVals, anyFatalT, ih, List.append_assoc]

/-- Closed form of the `allErrors` record driver. -/
lemma specAllRec_closed (allow : Bool) :
    ∀ (A : List (String × Outcome)) (es : List PErr) (out : List (String × Value)) (b : Bool),
      specAllRec allow A es out b =
        mkRecordResult (es ++ outErrsRec A) (applySets out (outKVsRec A))
          (b || anyFatalRec allow A) := by
  intro A
  induction A with
  | nil =>
    intro es out b
    simp only [outErrsRec, outKVsRec, anyFatalRec, List.append_nil, Bool.or_false]
    rfl
  | cons x tl ih =>
    intro es out b
    obtain ⟨k, o⟩ := x
    cases o with
    | skip => simp [specAllRec, outErrsRec, outKVsRec, anyFatalRec, ih]
    | miss => simp [specAllRec, outErrsRec, outKVsRec, anyFatalRec, ih, List.append_assoc]
    | fail es2 => simp [specAllRec, outErrsRec, outKVsRec, anyFatalRec, ih, List.append_assoc]
    | warn es2 v => simp [specAllRec, outErrsRec, outKVsRec, anyFatalRec, ih,
        List.append_assoc, Bool.or_assoc, applySets]
    | ok v => simp [specAllRec, outErrsRec, outKVsRec, anyFatalRec, ih, applySets]
    | unex v =>
      cases allow with
      | true => simp [specAllRec, outErrsRec, outKVsRec, anyFatalRec, ih, List.append_assoc]
      | false => simp [specAllRec, outErrsRec, outKVsRec, anyFatalRec, ih, List.append_assoc]

/-- With `allErrors`, the elements loop never returns early: it visits every
element position and accumulates every error. -/
lemma elemsLoop_all (input : List Value) (opts : ParseOptions) (h : opts.allErrors = true) :
    ∀ (eps : List (P × Bool)) (i : Nat) (es : List PErr) (out : List Value) (b : Bool),
      elemsLoop input opts eps i es out b =
        .cont (es ++ outErrsT (elemOutcomes input opts eps i))
          (out ++ outVals (elemOutcomes input opts eps i))
          (b || anyFatalT opts.isUnexpectedAllowed (elemOutcomes input opts eps i))
          (i + eps.length) := by
  intro eps
  induction eps with
  | nil => intro i es out b; simp [elemsLoop, elemOutcomes, outErrsT, outVals, anyFatalT]
  | cons e tl ih =>
    intro i es out b
    obtain ⟨p, isOpt⟩ := e
    have e2 : i + (tl.length + 1) = (i + 1) + tl.length := by omega
    by_cases hmiss : input.length < i + 1
    · cases isOpt with
      | true =>
        simp [elemsLoop, hmiss, elemOutcomes, positionOutcome, outErrsT, outVals,
          anyFatalT, ih, e2]
      | false =>
        simp [elemsLoop, hmiss, h, elemOutcomes, positionOutcome, outErrsT, outVals,
          anyFatalT, ih, e2, List.append_assoc]
    · cases hp : p (jsIndex input i) opts with
      | failure errs =>
        simp [elemsLoop, hmiss, hp, h, elemOutcomes, positionOutcome, classify, outErrsT,
          outVals, anyFatalT, ih, e2, List.append_assoc]
      | warning ws v =>
        simp [elemsLoop, hmiss, hp, elemOutcomes, positionOutcome, classify, outErrsT,
          outVals, anyFatalT, ih, e2, List.append_assoc, Bool.or_assoc]
      | success v =>
        simp [elemsLoop, hmiss, hp, elemOutcomes, positionOutcome, classify, outErrsT,
          outVals, anyFatalT, ih, e2, List.append_assoc]

/-- With `allErrors`, the unexpected-indexes loop never returns early. -/
lemma unexpectedIdxLoop_all (input : List Value) (opts : ParseOptions)
    (h : opts.allErrors = true) :
    ∀ (n i : Nat) (es : List PErr) (out : List Value) (b : Bool),
      unexpectedIdxLoop input opts n i es out b =
        .cont (es ++ outErrsT (extraOutcomes input n i))
          (out ++ outVals (extraOutcomes input n i))
          (b || anyFatalT opts.isUnexpectedAllowed (extraOutcomes input n i))
          (i + n) := by
  intro n
  induction n with
  | zero => intro i es out b; simp [unexpectedIdxLoop, extraOutcomes, outErrsT, outVals,
      anyFatalT]
  | succ n ih =>
    intro i es out b
    have e2 : i + (n + 1) = (i + 1) + n := by omega
    cases ha : opts.isUnexpectedAllowed with
    | true =>
      simp [unexpectedIdxLoop, ha, extraOutcomes, outErrsT, outVals, anyFatalT, ih, e2,
        List.append_assoc]
    | false =>
      simp [unexpectedIdxLoop, ha, h, extraOutcomes, outErrsT, outVals, anyFatalT, ih, e2,
        List.append_assoc, Bool.or_assoc]

/-- With `allErrors`, the rest loop never returns early. -/
lemma restLoop_all (input : List Value) (opts : ParseOptions) (head : P)
    (h : opts.allErrors = true) :
    ∀ (n i : Nat) (es : List PErr) (out : List Value) (b : Bool),
      restLoop input opts head n i es out b =
        .cont (es ++ outErrsT (restOutcomes input opts head n i))
          (out ++ outVals (restOutcomes input opts head n i))
          (b || anyFatalT opts.isUnexpectedAllowed (restOutcomes input opts head n i))
          (i + n) := by
  intro n
  induction n with
  | zero => intro i es out b; simp [restLoop, restOutcomes, outErrsT, outVals, anyFatalT]
  | succ n ih =>
    intro i es out b
    have e2 : i + (n + 1) = (i + 1) + n := by omega
    cases hp : head (jsIndex input i) opts with
    | failure errs =>
      simp [restLoop, hp, h, restOutcomes, classify, outErrsT, outVals, anyFatalT, ih, e2,
        List.append_assoc]
    | warning ws v =>
      simp [restLoop, hp, restOutcomes, classify, outErrsT, outVals, anyFatalT, ih, e2,
        List.append_assoc, Bool.or_assoc]
    | success v =>
      simp [restLoop, hp, restOutcomes, classify, outErrsT, outVals, anyFatalT, ih, e2,
        List.append_assoc]

/-- With `allErrors`, the property-signatures loop never returns early. -/
lemma propsLoop_all (input : List (String × Value)) (opts : ParseOptions)
    (h : opts.allErrors = true) :
    ∀ (pps : List (String × P × Bool)) (es : List PErr) (out : List (String × Value)) (b : Bool),
      propsLoop input opts pps es out b =
        .cont (es ++ outErrsRec (propOutcomes input opts pps))
          (applySets out (outKVsRec (propOutcomes input opts pps)))
          (b || anyFatalRec opts.isUnexpectedAllowed (propOutcomes input opts pps)) := by
  intro pps
  induction pps with
  | nil => intro es out b; simp [propsLoop, propOutcomes, outErrsRec, outKVsRec, applySets,
      anyFatalRec]
  | cons e tl ih =>
    intro es out b
    obtain ⟨name, p, isOpt⟩ := e
    by_cases hown : hasOwn input name = true
    · cases hp : p (jsGetKey input name) opts with
      | failure errs =>
        simp [propsLoop, hown, hp, h, propOutcomes, propOutcome, classify, outErrsRec,
          outKVsRec, anyFatalRec, ih, List.append_assoc]
      | warning ws v =>
        simp [propsLoop, hown, hp, propOutcomes, propOutcome, classify, outErrsRec,
          outKVsRec, anyFatalRec, ih, List.append_assoc, Bool.or_assoc, applySets]
      | success v =>
        simp [propsLoop, hown, hp, propOutcomes, propOutcome, classify, outErrsRec,
          outKVsRec, anyFatalRec, ih, applySets]
    · cases isOpt with
      | true =>
        simp [propsLoop, hown, propOutcomes, propOutcome, outErrsRec, outKVsRec,
          anyFatalRec, ih]
      | false =>
        simp [propsLoop, hown, h, propOutcomes, propOutcome, outErrsRec, outKVsRec,
          anyFatalRec, ih, List.append_assoc]

/-- With `allErrors`, the unexpected-keys loop never returns early. -/
lemma unexpectedKeysLoop_all (input : List (String × Value)) (opts : ParseOptions)
    (expected : List String) (h : opts.allErrors = true) :
    ∀ (ks : List String) (es : List PErr) (out : List (String × Value)) (b : Bool),
      unexpectedKeysLoop input opts expected ks es out b =
        .cont (es ++ outErrsRec (unexpectedKeyOutcomes input expected ks)) out
          (b || anyFatalRec opts.isUnexpectedAllowed (unexpectedKeyOutcomes input expected ks)) := by
  intro ks
  induction ks with
  | nil => intro es out b; simp [unexpectedKeysLoop, unexpectedKeyOutcomes, outErrsRec,
      anyFatalRec]
  | cons k ks ih =>
    intro es out b
    by_cases hk : k ∈ expected
    · have hc : expected.contains k = true := by simpa using hk
      simp [unexpectedKeysLoop, hc, hk, unexpectedKeyOutcomes, ih]
    · have hc : expected.contains k = false := by simpa using hk
      cases ha : opts.isUnexpectedAllowed with
      | true =>
        simp [unexpectedKeysLoop, hc, hk, ha, unexpectedKeyOutcomes, outErrsRec,
          anyFatalRec, ih, List.append_assoc]
      | false =>
        simp [unexpectedKeysLoop, hc, hk, ha, h, unexpectedKeyOutcomes, outErrsRec,
          anyFatalRec, ih, List.append_assoc, Bool.or_assoc]

/-- The Tuple parser with a rest element and empty post-rest tail is the
elements loop continued into the rest loop. -/
lemma tupleParse_rest_nil (eps : List (P × Bool)) (hp : P) (input : List Value)
    (opts : ParseOptions) :
    tupleParse eps (some (hp, [])) (.arr input) opts =
      contRestNil input opts hp (elemsLoop input opts eps 0 [] [] false) := by
  simp only [tupleParse, List.length_nil, Nat.sub_zero]
  cases elemsLoop input opts eps 0 [] [] false with
  | early r => rfl
  | cont es out isLeft i =>
    simp only [contRestNil, finishT]
    cases restLoop input opts hp (input.length - i) i es out isLeft with
    | early r => rfl
    | cont es out isLeft i => rfl

/-- `go` on a tuple with rest head and empty post-rest tail, reduced to the
loop composition. -/
lemma go_tuple_rest_nil (dir : Direction) (els : List (AST × Bool)) (hAst : AST) (ro : Bool)
    (input : List Value) (opts : ParseOptions) :
    go dir (.tuple els (some (hAst, [])) ro) (.arr input) opts =
      contRestNil input opts (go dir hAst)
        (elemsLoop input opts (goElems dir els) 0 [] [] false) := by
  show tupleParse (goElems dir els) (goRest dir (some (hAst, []))) (.arr input) opts = _
  rw [goRest, goList]
  exact tupleParse_rest_nil _ _ _ _

lemma outKVsRec_unexpectedKeyOutcomes (input : List (String × Value)) (expected : List String) :
    ∀ ks, outKVsRec (unexpectedKeyOutcomes input expected ks) = [] := by
  intro ks
  induction ks with
  | nil => rfl
  | cons k ks ih =>
    by_cases hk : k ∈ expected
    · simp [unexpectedKeyOutcomes, hk, ih]
    · simp [unexpectedKeyOutcomes, hk, outKVsRec, ih]

/-- C4 (corrected): with `allErrors`, the element loop, an empty-tail rest
loop, and the record loops visit every position and accumulate every error
(never stopping early); the result is the `allErrors` driver over all
position outcomes. The exception forced by the counterexample — a Missing
element in a non-empty post-rest tail bails out immediately — is outside
these traversals. -/
theorem c4_all_errors :
    (∀ (dir : Direction) (ro ua : Bool) (els : List (AST × Bool)) (input : List Value),
      go dir (.tuple els none ro) (.arr input) ⟨ua, true⟩ =
        specAll ua
          (elemOutcomes input ⟨ua, true⟩ (goElems dir els) 0 ++
            extraOutcomes input (input.length - (goElems dir els).length)
              (goElems dir els).length) [] [] false) ∧
    (∀ (dir : Direction) (ro ua : Bool) (els : List (AST × Bool)) (hAst : AST)
      (input : List Value),
      go dir (.tuple els (some (hAst, [])) ro) (.arr input) ⟨ua, true⟩ =
        specAll ua
          (elemOutcomes input ⟨ua, true⟩ (goElems dir els) 0 ++
            restOutcomes input ⟨ua, true⟩ (go dir hAst)
              (input.length - (goElems dir els).length) (goElems dir els).length) [] [] false) ∧
    (∀ (dir : Direction) (ua : Bool) (p0 : String × AST × Bool)
      (props : List (String × AST × Bool)) (input : List (String × Value)),
      go dir (.typeLiteral (p0 :: props) []) (.obj input) ⟨ua, true⟩ =
        specAllRec ua
          (propOutcomes input ⟨ua, true⟩ (goProps dir (p0 :: props)) ++
            unexpectedKeyOutcomes input ((p0 :: props).map Prod.fst) (ownKeys input))
          [] [] false) := by
  refine ⟨?_, ?_, ?_⟩
  · intro dir ro ua els input
    rw [go_tuple_norest, elemsLoop_all input ⟨ua, true⟩ rfl]
    simp only [contUnex]
    rw [unexpectedIdxLoop_all input ⟨ua, true⟩ rfl]
    simp only [finishT]
    rw [specAll_closed]
    simp [outErrsT_append, outVals_append, anyFatalT_append, List.append_assoc, Bool.or_assoc]
  · intro dir ro ua els hAst input
    rw [go_tuple_rest_nil, elemsLoop_all input ⟨ua, true⟩ rfl]
    simp only [contRestNil]
    rw [restLoop_all input ⟨ua, true⟩ (go dir hAst) rfl]
    simp only [finishT]
    rw [specAll_closed]
    simp [outErrsT_append, outVals_append, anyFatalT_append, List.append_assoc, Bool.or_assoc]
  · intro dir ua p0 props input
    rw [go_record_nosigs, propsLoop_all input ⟨ua, true⟩ rfl]
    simp only [contUnexKeys]
    rw [unexpectedKeysLoop_all input ⟨ua, true⟩ _ rfl]
    simp only [finishR]
    rw [specAllRec_closed]
    simp [outErrsRec_append, outKVsRec_append, anyFatalRec_append, applySets_append,
      outKVsRec_unexpectedKeyOutcomes, applySets, List.append_assoc, Bool.or_assoc]

/-- C4 (counterexample): with `allErrors = true`, a tuple with rest head and
two required post-rest elements, on the empty array, reports only the first
missing post-rest position and stops; the claim demands the complete error
list with both missing positions. -/
theorem c4_cex :
    decode (.tuple [] (some (.numberKeyword, [.numberKeyword, .numberKeyword])) true)
        (.arr []) ⟨false, true⟩ = .failure [.index 0 [.missing]] ∧
      PR.failure [.index 0 [.missing]] ≠
        .failure [.index 0 [.missing], .index 1 [.missing]] := by
  constructor
  · rfl
  · simp

/-- C1 (counterexample): with a warning collected at position 0 and a
missing required element at position 1, the failure carries only the
Missing error; the claim demands the earlier warning be attached. -/
theorem c1_cex :
    decode (.tuple [(.tuple [] none true, false), (.stringKeyword, false)] none true)
        (.arr [.arr [.num 1]]) ⟨true, false⟩ = .failure [.index 1 [.missing]] ∧
      PR.failure [.index 1 [.missing]] ≠
        .failure [.index 0 [.index 0 [.unexpected (.num 1)]], .index 1 [.missing]] := by
  constructor
  · rfl
  · simp

/-! ### Direction irrelevance on transform-free ASTs -/

mutual
/-- On an AST without `Transform` nodes, the compiled parser is the same in
every direction (the direction parameter is only consulted in the
`Transform` case, source lines 518-536). -/
theorem tf_go (d d' : Direction) : ∀ (a : AST), tf a = true → go d a = go d' a
  | .literal v, _ => rfl
  | .uniqueSymbol s, _ => rfl
  | .undefinedKeyword, _ => rfl
  | .voidKeyword, _ => rfl
  | .neverKeyword, _ => rfl
  | .unknownKeyword, _ => rfl
  | .anyKeyword, _ => rfl
  | .stringKeyword, _ => rfl
  | .numberKeyword, _ => rfl
  | .booleanKeyword, _ => rfl
  | .bigIntKeyword, _ => rfl
  | .symbolKeyword, _ => rfl
  | .objectKeyword, _ => rfl
  | .tuple els rest ro, h => by
    have h1 : tfElems els = true ∧ tfRest rest = true := by
      simpa [tf, Bool.and_eq_true] using h
    show tupleParse (goElems d els) (goRest d rest) =
      tupleParse (goElems d' els) (goRest d' rest)
    rw [tf_goElems d d' els h1.1, tf_goRest d d' rest h1.2]
  | .typeLiteral [] [], _ => rfl
  | .typeLiteral (p :: ps) isigs, h => by
    have h1 : tfProps (p :: ps) = true ∧ tfISigs isigs = true := by
      simpa [tf, Bool.and_eq_true] using h
    show recordParse (goProps d (p :: ps)) (goISigs d isigs) ((p :: ps).map Prod.fst) =
      recordParse (goProps d' (p :: ps)) (goISigs d' isigs) ((p :: ps).map Prod.fst)
    rw [tf_goProps d d' _ h1.1, tf_goISigs d d' _ h1.2]
  | .typeLiteral [] (s :: ss), h => by
    have h1 : tfProps [] = true ∧ tfISigs (s :: ss) = true := by
      simpa [tf, Bool.and_eq_true] using h
    show recordParse (goProps d []) (goISigs d (s :: ss)) (([] : List (String × AST × Bool)).map
        Prod.fst) =
      recordParse (goProps d' []) (goISigs d' (s :: ss)) (([] : List (String × AST × Bool)).map
        Prod.fst)
    rw [tf_goISigs d d' _ h1.2]
    rfl
  | .union ts, h => by
    have h1 : tfList ts = true := by simpa [tf] using h
    show (fun u opts => unionLoop u opts (goList d ts) [] none) =
      (fun u opts => unionLoop u opts (goList d' ts) [] none)
    rw [tf_goList d d' ts h1]
  | .enums l, _ => rfl
  | .refinement frm dec, h => by
    have h1 : tf frm = true := by simpa [tf] using h
    show (fun u opts => prFlatMap (go d frm u opts) (evalStep dec)) =
      (fun u opts => prFlatMap (go d' frm u opts) (evalStep dec))
    rw [tf_go d d' frm h1]
  | .transform frm tgt dec enc, h => by simp [tf] at h

theorem tf_goElems (d d' : Direction) :
    ∀ (els : List (AST × Bool)), tfElems els = true → goElems d els = goElems d' els
  | [], _ => rfl
  | (a, b) :: tl, h => by
    have h1 : tf a = true ∧ tfElems tl = true := by
      simpa [tfElems, Bool.and_eq_true] using h
    show (go d a, b) :: goElems d tl = (go d' a, b) :: goElems d' tl
    rw [tf_go d d' a h1.1, tf_goElems d d' tl h1.2]

theorem tf_goRest (d d' : Direction) :
    ∀ (rest : Option (AST × List AST)), tfRest rest = true → goRest d rest = goRest d' rest
  | none, _ => rfl
  | some (hAst, t), h => by
    have h1 : tf hAst = true ∧ tfList t = true := by
      simpa [tfRest, Bool.and_eq_true] using h
    show some (go d hAst, goList d t) = some (go d' hAst, goList d' t)
    rw [tf_go d d' hAst h1.1, tf_goList d d' t h1.2]

theorem tf_goProps (d d' : Direction) :
    ∀ (props : List (String × AST × Bool)), tfProps props = true →
      goProps d props = goProps d' props
  | [], _ => rfl
  | (n, a, b) :: tl, h => by
    have h1 : tf a = true ∧ tfProps tl = true := by
      simpa [tfProps, Bool.and_eq_true] using h
    show (n, go d a, b) :: goProps d tl = (n, go d' a, b) :: goProps d' tl
    rw [tf_go d d' a h1.1, tf_goProps d d' tl h1.2]

theorem tf_goISigs (d d' : Direction) :
    ∀ (isigs : List (AST × AST)), tfISigs isigs = true → goISigs d isigs = goISigs d' isigs
  | [], _ => rfl
  | (param, ty) :: tl, h => by
    have h1 : tf param = true ∧ tf ty = true ∧ tfISigs tl = true := by
      simpa [tfISigs, Bool.and_eq_true, and_assoc] using h
    show ((go d param, go d ty), param) :: goISigs d tl =
      ((go d' param, go d' ty), param) :: goISigs d' tl
    rw [tf_go d d' param h1.1, tf_go d d' ty h1.2.1, tf_goISigs d d' tl h1.2.2]

theorem tf_goList (d d' : Direction) :
    ∀ (ts : List AST), tfList ts = true → goList d ts = goList d' ts
  | [], _ => rfl
  | a :: tl, h => by
    have h1 : tf a = true ∧ tfList tl = true := by
      simpa [tfList, Bool.and_eq_true] using h
    show go d a :: goList d tl = go d' a :: goList d' tl
    rw [tf_go d d' a h1.1, tf_goList d d' tl h1.2]
end

/-- C2 (corrected, amended): on every AST of the embedded fragment with no
`Transform` node, the guard (`is`) returns `true` exactly when decoding does
not yield a Failure; on `Transform` nodes the equivalence can fail, because
the guard descends into the `to` side only while the decoder parses `from`
and applies the decode leg. -/
theorem c2_guard_decode_equiv (a : AST) (h : tf a = true) (u : Value) (opts : ParseOptions) :
    is a u opts = !(isFailureB (decode a u opts)) := by
  unfold is decode
  rw [tf_go .guard .decoder a h]

/-- C2 (witness): the equivalence applied to the string keyword. -/
theorem c2_witness :
    tf .stringKeyword = true ∧
      is .stringKeyword (.str "a") ⟨false, false⟩ =
        !(isFailureB (decode .stringKeyword (.str "a") ⟨false, false⟩)) :=
  ⟨rfl, c2_guard_decode_equiv .stringKeyword rfl (.str "a") ⟨false, false⟩⟩

/-- C2 (counterexample): for the transform from `string` to `number` whose
decode leg always succeeds with `0`, the guard rejects the input `"x"` while
the decoder does not fail, so the claimed equivalence is false on a
`Transform` node. -/
theorem c2_cex :
    is (.transform .stringKeyword .numberKeyword (.succeedConst (.num 0))
        (.succeedConst (.str ""))) (.str "x") ⟨false, false⟩ = false ∧
      isFailureB (decode (.transform .stringKeyword .numberKeyword (.succeedConst (.num 0))
        (.succeedConst (.str ""))) (.str "x") ⟨false, false⟩) = false :=
  ⟨rfl, rfl⟩

/-! ### Post-rest indexing -/

/-- C3 (code bug): for a tuple with rest head `string` and post-rest tail
`[number, number, number]`, the input `[1, 2, 3]` consists exactly of the
three final positions and should decode to `Success([1, 2, 3])` at absolute
indexes 0, 1, 2; instead, the `i += j` progression of the post-rest loop
(source line 263) reads indexes 0, 1 and then 3, and the out-of-range read
is reported as `Index(3, [Missing])`. -/
theorem c3_post_rest_misindexed :
    decode (.tuple []
        (some (.stringKeyword, [.numberKeyword, .numberKeyword, .numberKeyword])) true)
      (.arr [.num 1, .num 2, .num 3]) ⟨false, false⟩ =
      .failure [.index 3 [.missing]] := rfl

/-! ### Union scenario of §8 -/

/-- C6 (counterexample): with `isUnexpectedAllowed = false` and
`allErrors = true`, the unexpected key `extra` is fatal inside branch `b`,
so both branches fail and the union returns the Member-wrapped failures —
not the claimed Warning selecting branch `b`. -/
theorem c6_cex :
    decode (.union [
        .typeLiteral [("kind", .literal (.str "a"), false), ("x", .numberKeyword, false)] [],
        .typeLiteral [("kind", .literal (.str "b"), false), ("y", .numberKeyword, false)] []])
      (.obj [("kind", .str "b"), ("y", .num 3), ("extra", .num 1)]) ⟨false, true⟩ =
      .failure [
        .member [.key "kind" [.equal (.str "a") (.str "b")], .key "x" [.missing],
          .key "y" [.unexpected (.num 3)], .key "extra" [.unexpected (.num 1)]],
        .member [.key "extra" [.unexpected (.num 1)]]] ∧
    PR.failure [
        .member [.key "kind" [.equal (.str "a") (.str "b")], .key "x" [.missing],
          .key "y" [.unexpected (.num 3)], .key "extra" [.unexpected (.num 1)]],
        .member [.key "extra" [.unexpected (.num 1)]]] ≠
      .warning [.key "extra" [.unexpected (.num 1)]]
        (.obj [("kind", .str "b"), ("y", .num 3)]) := by
  constructor
  · rfl
  · simp

/-- C6 (corrected, amended): the scenario holds with
`isUnexpectedAllowed = true`: branch `a` fails structurally, branch `b`
yields the warning for the tolerated unexpected key `extra`, and the union
returns it with the value `{kind: "b", y: 3}`. -/
theorem c6_union_prefers_fewer_unexpected :
    decode (.union [
        .typeLiteral [("kind", .literal (.str "a"), false), ("x", .numberKeyword, false)] [],
        .typeLiteral [("kind", .literal (.str "b"), false), ("y", .numberKeyword, false)] []])
      (.obj [("kind", .str "b"), ("y", .num 3), ("extra", .num 1)]) ⟨true, true⟩ =
      .warning [.key "extra" [.unexpected (.num 1)]]
        (.obj [("kind", .str "b"), ("y", .num 3)]) := rfl

/-! ### BigInt coercion -/

/-- C8 (confirmed): for the BigIntKeyword node, a bigint input succeeds
unchanged; a string input is coerced with `BigInt(u)`, succeeding with the
coerced value or, when the coercion throws, failing with
`Transform(primitive, bigInt, input)`; number and boolean inputs coerce (in
this integer value model numeric coercion cannot throw); any other kind of
input fails with the bare `Type(primitive, input)`. -/
theorem c8_bigint_coercion :
    (∀ (n : Int) (opts : ParseOptions),
      decode .bigIntKeyword (.bigint n) opts = .success (.bigint n)) ∧
    (∀ (s : String) (opts : ParseOptions),
      decode .bigIntKeyword (.str s) opts =
        match jsBigIntOfString s with
        | some n => .success (.bigint n)
        | none => .failure [.transform primitive .bigIntKeyword (.str s)]) ∧
    (∀ (n : Int) (opts : ParseOptions),
      decode .bigIntKeyword (.num n) opts = .success (.bigint n)) ∧
    (∀ (b : Bool) (opts : ParseOptions),
      decode .bigIntKeyword (.bool b) opts = .success (.bigint (if b then 1 else 0))) ∧
    (∀ opts : ParseOptions, decode .bigIntKeyword .null opts = .failure [.type primitive .null]) ∧
    (∀ opts : ParseOptions,
      decode .bigIntKeyword .undefinedV opts = .failure [.type primitive .undefinedV]) ∧
    (∀ (s : String) (opts : ParseOptions),
      decode .bigIntKeyword (.sym s) opts = .failure [.type primitive (.sym s)]) ∧
    (∀ (xs : List Value) (opts : ParseOptions),
      decode .bigIntKeyword (.arr xs) opts = .failure [.type primitive (.arr xs)]) ∧
    (∀ (kvs : List (String × Value)) (opts : ParseOptions),
      decode .bigIntKeyword (.obj kvs) opts = .failure [.type primitive (.obj kvs)]) :=
  ⟨fun _ _ => rfl, fun _ _ => rfl, fun _ _ => rfl, fun _ _ => rfl, fun _ => rfl, fun _ => rfl,
    fun _ _ => rfl, fun _ _ => rfl, fun _ _ => rfl⟩

/-! ### TypeLiteral rejection and unexpected keys -/

lemma errsOf_mkRecordResult (es : List PErr) (out : List (String × Value)) (b : Bool)
    (h : es ≠ []) : errsOf (mkRecordResult es out b) = es := by
  simp only [mkRecordResult]
  rw [if_neg (by simpa [List.isEmpty_iff] using h)]
  cases b <;> simp [errsOf]

lemma isFailureB_mkRecordResult (es : List PErr) (out : List (String × Value))
    (h : es ≠ []) : isFailureB (mkRecordResult es out true) = true := by
  simp only [mkRecordResult]
  rw [if_neg (by simpa [List.isEmpty_iff] using h)]
  simp [isFailureB]

lemma mem_unexpectedKeyOutcomes (input : List (String × Value)) (expected : List String)
    (k : String) (hnk : k ∉ expected) :
    ∀ ks, k ∈ ks → (k, Outcome.unex (jsGetKey input k)) ∈ unexpectedKeyOutcomes input expected ks := by
  intro ks
  induction ks with
  | nil => intro h; simp at h
  | cons k0 ks ih =>
    intro hmem
    by_cases hk0 : k0 ∈ expected
    · have : k ∈ ks := by
        rcases List.mem_cons.mp hmem with h1 | h1
        · exact absurd (h1 ▸ hk0) hnk
        · exact h1
      simp [unexpectedKeyOutcomes, hk0, ih this]
    · rcases List.mem_cons.mp hmem with h1 | h1
      · subst h1; simp [unexpectedKeyOutcomes, hnk]
      · simp [unexpectedKeyOutcomes, hk0]
        right
        exact ih h1

lemma mem_outErrsRec_of_unex (k : String) (v : Value) :
    ∀ (A : List (String × Outcome)), (k, Outcome.unex v) ∈ A →
      PErr.key k [.unexpected v] ∈ outErrsRec A := by
  intro A
  induction A with
  | nil => intro h; simp at h
  | cons x tl ih =>
    intro hmem
    obtain ⟨k0, o0⟩ := x
    rcases List.mem_cons.mp hmem with h1 | h1
    · injection h1 with hk ho
      subst hk
      rw [← ho]
      simp [outErrsRec]
    · simp only [outErrsRec, List.mem_append]
      right
      exact ih h1

lemma anyFatalRec_of_unex (k : String) (v : Value) :
    ∀ (A : List (String × Outcome)), (k, Outcome.unex v) ∈ A →
      anyFatalRec false A = true := by
  intro A
  induction A with
  | nil => intro h; simp at h
  | cons x tl ih =>
    intro hmem
    obtain ⟨k0, o0⟩ := x
    rcases List.mem_cons.mp hmem with h1 | h1
    · have : o0 = Outcome.unex v := congrArg Prod.snd h1.symm
      subst this
      simp [anyFatalRec]
    · simp [anyFatalRec, ih h1]

/-- C7 (corrected, amended): a TypeLiteral node with at least one property
or index signature rejects any non-object input with
`Failure([Type(unknownRecord, input)])`; the zero-signature node instead
accepts any non-null input unchanged and rejects `null` with its own type
error (the amendment, from the fast path at source line 321); and when a
node with at least one property has no index signatures, every own key not
among the declared names yields an Unexpected diagnostic wrapped as
`Key(key, …)` (visible in full under `allErrors`), fatal unless
`isUnexpectedAllowed` is set. -/
theorem c7_type_literal_rejection :
    (∀ (dir : Direction) (p0 : String × AST × Bool) (props : List (String × AST × Bool))
      (isigs : List (AST × AST)) (u : Value) (opts : ParseOptions),
      isUnknownObjectB u = false →
      go dir (.typeLiteral (p0 :: props) isigs) u opts = .failure [.type unknownRecord u]) ∧
    (∀ (dir : Direction) (s0 : AST × AST) (isigs : List (AST × AST)) (u : Value)
      (opts : ParseOptions),
      isUnknownObjectB u = false →
      go dir (.typeLiteral [] (s0 :: isigs)) u opts = .failure [.type unknownRecord u]) ∧
    (∀ (dir : Direction) (u : Value) (opts : ParseOptions),
      go dir (.typeLiteral [] []) u opts =
        if isNotNullB u then .success u else .failure [.type (.typeLiteral [] []) u]) ∧
    (∀ (dir : Direction) (ua : Bool) (p0 : String × AST × Bool)
      (props : List (String × AST × Bool)) (input : List (String × Value)) (k : String),
      k ∈ ownKeys input → k ∉ (p0 :: props).map Prod.fst →
      PErr.key k [.unexpected (jsGetKey input k)] ∈
          errsOf (go dir (.typeLiteral (p0 :: props) []) (.obj input) ⟨ua, true⟩) ∧
        (ua = false →
          isFailureB (go dir (.typeLiteral (p0 :: props) []) (.obj input) ⟨ua, true⟩) = true)) := by
  refine ⟨?_, ?_, ?_, ?_⟩
  · intro dir p0 props isigs u opts hu
    cases u with
    | obj kvs => simp [isUnknownObjectB] at hu
    | str s => rfl
    | num n => rfl
    | bool b => rfl
    | bigint n => rfl
    | null => rfl
    | undefinedV => rfl
    | sym s => rfl
    | arr xs => rfl
  · intro dir s0 isigs u opts hu
    cases u with
    | obj kvs => simp [isUnknownObjectB] at hu
    | str s => rfl
    | num n => rfl
    | bool b => rfl
    | bigint n => rfl
    | null => rfl
    | undefinedV => rfl
    | sym s => rfl
    | arr xs => rfl
  · intro dir u opts
    rfl
  · intro dir ua p0 props input k hk hnk
    rw [go_record_nosigs, propsLoop_all input ⟨ua, true⟩ rfl]
    simp only [contUnexKeys]
    rw [unexpectedKeysLoop_all input ⟨ua, true⟩ _ rfl]
    simp only [finishR]
    have hkB : (k, Outcome.unex (jsGetKey input k)) ∈
        unexpectedKeyOutcomes input ((p0 :: props).map Prod.fst) (ownKeys input) :=
      mem_unexpectedKeyOutcomes input _ k hnk (ownKeys input) hk
    have hmem : PErr.key k [.unexpected (jsGetKey input k)] ∈
        outErrsRec (unexpectedKeyOutcomes input ((p0 :: props).map Prod.fst) (ownKeys input)) :=
      mem_outErrsRec_of_unex k _ _ hkB
    have hne : ([] ++ outErrsRec (propOutcomes input ⟨ua, true⟩ (goProps dir (p0 :: props)))) ++
        outErrsRec (unexpectedKeyOutcomes input ((p0 :: props).map Prod.fst) (ownKeys input)) ≠
          [] := by
      intro hcontra
      rw [List.append_eq_nil] at hcontra
      rw [hcontra.2] at hmem
      simp at hmem
    constructor
    · rw [errsOf_mkRecordResult _ _ _ hne]
      exact List.mem_append_right _ hmem
    · intro hua
      subst hua
      have hb : ((false ||
          anyFatalRec (false : Bool)
            (propOutcomes input ⟨false, true⟩ (goProps dir (p0 :: props)))) ||
          anyFatalRec false
            (unexpectedKeyOutcomes input ((p0 :: props).map Prod.fst) (ownKeys input))) = true := by
        rw [anyFatalRec_of_unex k _ _ hkB]
        simp
      rw [hb]
      exact isFailureB_mkRecordResult _ _ hne

/-- C7 (counterexample): the zero-signature TypeLiteral accepts the number
`5`, not rejecting it with `Type(unknownRecord, 5)` as the claim requires
for every TypeLiteral node. -/
theorem c7_cex :
    decode (.typeLiteral [] []) (.num 5) ⟨false, false⟩ = .success (.num 5) ∧
      PR.success (.num 5) ≠ .failure [.type unknownRecord (.num 5)] := by
  constructor
  · rfl
  · simp

/-- C7 (witness): the amended claim applied to concrete nodes — the
one-property record rejects the number `7`, and on the input
`{a: "x", z: 5}` the undeclared key `z` produces a fatal unexpected
diagnostic. -/
theorem c7_witness :
    isUnknownObjectB (Value.num 7) = false ∧
    go .decoder (.typeLiteral [("a", .stringKeyword, false)] []) (.num 7) ⟨false, false⟩ =
      .failure [.type unknownRecord (.num 7)] ∧
    PErr.key "z" [.unexpected (.num 5)] ∈
      errsOf (go .decoder (.typeLiteral [("a", .stringKeyword, false)] [])
        (.obj [("a", .str "x"), ("z", .num 5)]) ⟨false, true⟩) ∧
    isFailureB (go .decoder (.typeLiteral [("a", .stringKeyword, false)] [])
        (.obj [("a", .str "x"), ("z", .num 5)]) ⟨false, true⟩) = true := by
  refine ⟨rfl, ?_, ?_, ?_⟩
  · exact c7_type_literal_rejection.1 .decoder ("a", .stringKeyword, false) [] [] (.num 7)
      ⟨false, false⟩ rfl
  · have h := (c7_type_literal_rejection.2.2.2 .decoder false ("a", .stringKeyword, false) []
      [("a", .str "x"), ("z", .num 5)] "z" (by simp [ownKeys]) (by simp)).1
    simpa [jsGetKey] using h
  · exact (c7_type_literal_rejection.2.2.2 .decoder false ("a", .stringKeyword, false) []
      [("a", .str "x"), ("z", .num 5)] "z" (by simp [ownKeys]) (by simp)).2 rfl

/-! ### Index signatures ignore unmatched keys -/

lemma goProps_names (dir : Direction) :
    ∀ (props : List (String × AST × Bool)),
      (goProps dir props).map Prod.fst = props.map Prod.fst := by
  intro props
  induction props with
  | nil => rfl
  | cons e tl ih => obtain ⟨n, a, b⟩ := e; simp [goProps, ih]

lemma goISigs_param (dir : Direction) :
    ∀ (l : List (AST × AST)) (sigp : (P × P) × AST), sigp ∈ goISigs dir l →
      ∃ sig ∈ l, sigp.2 = sig.1 := by
  intro l
  induction l with
  | nil => intro sigp h; simp [goISigs] at h
  | cons e tl ih =>
    intro sigp h
    obtain ⟨param, ty⟩ := e
    rcases List.mem_cons.mp h with h1 | h1
    · exact ⟨(param, ty), List.mem_cons_self _ _, by rw [h1]⟩
    · obtain ⟨sig, hs, he⟩ := ih sigp h1
      exact ⟨sig, List.mem_cons_of_mem _ hs, he⟩

lemma setKey_keys (k' k : String) (v : Value) :
    ∀ (out : List (String × Value)), k' ∈ (setKey out k v).map Prod.fst →
      k' ∈ out.map Prod.fst ∨ k' = k := by
  intro out
  induction out with
  | nil =>
    intro h
    simp only [setKey, List.map_cons, List.map_nil, List.mem_cons, List.not_mem_nil,
      or_false] at h
    exact Or.inr h
  | cons e tl ih =>
    intro h
    obtain ⟨k0, v0⟩ := e
    simp only [setKey] at h
    by_cases hk0 : (k0 == k) = true
    · rw [if_pos hk0] at h
      simp only [List.map_cons, List.mem_cons] at h
      rcases h with h1 | h1
      · exact Or.inl (List.mem_cons.mpr (Or.inl h1))
      · exact Or.inl (List.mem_cons.mpr (Or.inr h1))
    · rw [if_neg hk0] at h
      simp only [List.map_cons, List.mem_cons] at h
      rcases h with h1 | h1
      · exact Or.inl (List.mem_cons.mpr (Or.inl h1))
      · rcases ih h1 with h2 | h2
        · exact Or.inl (List.mem_cons.mpr (Or.inr h2))
        · exact Or.inr h2

lemma errScope_step {es X : List PErr} {name : String} {names : List String} {e : PErr}
    (h : e ∈ es ++ [PErr.key name X] ∨ ∃ n ∈ names, ∃ errs, e = PErr.key n errs) :
    e ∈ es ∨ ∃ n ∈ name :: names, ∃ errs, e = PErr.key n errs := by
  rcases h with h | ⟨n, hn, errs, rfl⟩
  · rcases List.mem_append.mp h with h | h
    · exact Or.inl h
    · exact Or.inr ⟨name, List.mem_cons_self _ _, X, List.mem_singleton.mp h⟩
  · exact Or.inr ⟨n, List.mem_cons_of_mem _ hn, errs, rfl⟩

lemma errScope_mono {es : List PErr} {name : String} {names : List String} {e : PErr}
    (h : e ∈ es ∨ ∃ n ∈ names, ∃ errs, e = PErr.key n errs) :
    e ∈ es ∨ ∃ n ∈ name :: names, ∃ errs, e = PErr.key n errs := by
  rcases h with h | ⟨n, hn, errs, rfl⟩
  · exact Or.inl h
  · exact Or.inr ⟨n, List.mem_cons_of_mem _ hn, errs, rfl⟩

lemma errScope_early {es X : List PErr} {name : String} {names : List String} (e : PErr)
    (h : e ∈ es ++ [PErr.key name X]) :
    e ∈ es ∨ ∃ n ∈ name :: names, ∃ errs, e = PErr.key n errs :=
  errScope_step (Or.inl h)

lemma keyScope_setKey {out : List (String × Value)} {name k : String} {v : Value}
    {names : List String}
    (h : k ∈ (setKey out name v).map Prod.fst ∨ k ∈ names) :
    k ∈ out.map Prod.fst ∨ k ∈ name :: names := by
  rcases h with h | h
  · rcases setKey_keys k name v out h with h1 | h1
    · exact Or.inl h1
    · exact Or.inr (by simp [h1])
  · exact Or.inr (List.mem_cons_of_mem _ h)

/-- Every error produced by the property-signatures loop beyond the
incoming accumulator is keyed by a declared property name; every output key
added is a declared property name; and an early return never carries a
usable value. -/
lemma propsLoop_scope (input : List (String × Value)) (opts : ParseOptions) :
    ∀ (pps : List (String × P × Bool)) (es : List PErr) (out : List (String × Value)) (b : Bool),
      (∀ e ∈ stepErrs (propsLoop input opts pps es out b),
        e ∈ es ∨ ∃ n ∈ pps.map Prod.fst, ∃ errs, e = PErr.key n errs) ∧
      (∀ k ∈ stepOutKeys (propsLoop input opts pps es out b),
        k ∈ out.map Prod.fst ∨ k ∈ pps.map Prod.fst) ∧
      (∀ r, propsLoop input opts pps es out b = .early r → resultValue r = none) := by
  intro pps
  induction pps with
  | nil =>
    intro es out b
    refine ⟨?_, ?_, ?_⟩
    · intro e he; exact Or.inl (by simpa [propsLoop, stepErrs] using he)
    · intro k hk; exact Or.inl (by simpa [propsLoop, stepOutKeys] using hk)
    · intro r hr; simp [propsLoop] at hr
  | cons e0 tl ih =>
    intro es out b
    obtain ⟨name, p, isOpt⟩ := e0
    by_cases hown : hasOwn input name = true
    · cases hp : p (jsGetKey input name) opts with
      | failure errs =>
        cases hae : opts.allErrors with
        | true =>
          obtain ⟨ih1, ih2, ih3⟩ := ih (es ++ [.key name errs]) out true
          simp only [propsLoop, hown, if_true, hp, hae]
          refine ⟨?_, ?_, ?_⟩
          · intro e he; exact errScope_step (ih1 e he)
          · intro k hk
            rcases ih2 k hk with h | h
            · exact Or.inl h
            · exact Or.inr (by simp [h])
          · exact ih3
        | false =>
          simp only [propsLoop, hown, if_true, hp, hae]
          refine ⟨?_, ?_, ?_⟩
          · intro e he
            exact errScope_early e (by simpa [stepErrs, errsOf] using he)
          · intro k hk; simp [stepOutKeys] at hk
          · intro r hr
            simp only [Bool.false_eq_true, if_false, RecordStep.early.injEq] at hr
            rw [← hr]
            rfl
      | warning ws v =>
        obtain ⟨ih1, ih2, ih3⟩ := ih (es ++ [.key name ws]) (setKey out name v) b
        simp only [propsLoop, hown, if_true, hp]
        refine ⟨?_, ?_, ?_⟩
        · intro e he; exact errScope_step (ih1 e he)
        · intro k hk; exact keyScope_setKey (ih2 k hk)
        · exact ih3
      | success v =>
        obtain ⟨ih1, ih2, ih3⟩ := ih es (setKey out name v) b
        simp only [propsLoop, hown, if_true, hp]
        refine ⟨?_, ?_, ?_⟩
        · intro e he; exact errScope_mono (ih1 e he)
        · intro k hk; exact keyScope_setKey (ih2 k hk)
        · exact ih3
    · cases isOpt with
      | true =>
        obtain ⟨ih1, ih2, ih3⟩ := ih es out b
        simp only [propsLoop, hown]
        refine ⟨?_, ?_, ?_⟩
        · intro e he; exact errScope_mono (ih1 e (by simpa using he))
        · intro k hk
          rcases ih2 k (by simpa using hk) with h | h
          · exact Or.inl h
          · exact Or.inr (by simp [h])
        · intro r hr; exact ih3 r (by simpa using hr)
      | false =>
        cases hae : opts.allErrors with
        | true =>
          obtain ⟨ih1, ih2, ih3⟩ := ih (es ++ [.key name [.missing]]) out true
          simp only [propsLoop, hown, hae]
          refine ⟨?_, ?_, ?_⟩
          · intro e he; exact errScope_step (ih1 e (by simpa using he))
          · intro k hk
            rcases ih2 k (by simpa using hk) with h | h
            · exact Or.inl h
            · exact Or.inr (by simp [h])
          · intro r hr; exact ih3 r (by simpa using hr)
        | false =>
          simp only [propsLoop, hown, hae]
          refine ⟨?_, ?_, ?_⟩
          · intro e he
            simp only [Bool.false_eq_true, if_false, stepErrs, errsOf] at he
            rcases (by simpa using he : e = PErr.key name [.missing]) with rfl
            exact Or.inr ⟨name, List.mem_cons_self _ _, [.missing], rfl⟩
          · intro k hk; simp [stepOutKeys] at hk
          · intro r hr
            simp only [Bool.false_eq_true, if_false, RecordStep.early.injEq] at hr
            rw [← hr]
            rfl

/-- Every error produced by a single index-signature key loop beyond the
incoming accumulator is keyed by one of the enumerated keys; every output
key added is one of the enumerated keys; an early return carries no value. -/
lemma iSigKeysLoop_scope (input : List (String × Value)) (opts : ParseOptions) (paramP typeP : P) :
    ∀ (ks : List String) (es : List PErr) (out : List (String × Value)) (b : Bool),
      (∀ e ∈ stepErrs (iSigKeysLoop input opts paramP typeP ks es out b),
        e ∈ es ∨ ∃ n ∈ ks, ∃ errs, e = PErr.key n errs) ∧
      (∀ k ∈ stepOutKeys (iSigKeysLoop input opts paramP typeP ks es out b),
        k ∈ out.map Prod.fst ∨ k ∈ ks) ∧
      (∀ r, iSigKeysLoop input opts paramP typeP ks es out b = .early r →
        resultValue r = none) := by
  intro ks
  induction ks with
  | nil =>
    intro es out b
    refine ⟨?_, ?_, ?_⟩
    · intro e he; exact Or.inl (by simpa [iSigKeysLoop, stepErrs] using he)
    · intro k hk; exact Or.inl (by simpa [iSigKeysLoop, stepOutKeys] using hk)
    · intro r hr; simp [iSigKeysLoop] at hr
  | cons k0 ks ih =>
    intro es out b
    cases hp : paramP (.str k0) opts with
    | failure errs =>
      cases hae : opts.allErrors with
      | true =>
        obtain ⟨ih1, ih2, ih3⟩ := ih (es ++ [.key k0 errs]) out true
        simp only [iSigKeysLoop, hp, hae]
        refine ⟨?_, ?_, ?_⟩
        · intro e he; exact errScope_step (ih1 e (by simpa using he))
        · intro k hk
          rcases ih2 k (by simpa using hk) with h | h
          · exact Or.inl h
          · exact Or.inr (by simp [h])
        · intro r hr; exact ih3 r (by simpa using hr)
      | false =>
        simp only [iSigKeysLoop, hp, hae]
        refine ⟨?_, ?_, ?_⟩
        · intro e he
          exact errScope_early e (by simpa [stepErrs, errsOf] using he)
        · intro k hk; simp [stepOutKeys] at hk
        · intro r hr
          simp only [Bool.false_eq_true, if_false, RecordStep.early.injEq] at hr
          rw [← hr]
          rfl
    | warning ws w =>
      cases hv : typeP (jsGetKey input k0) opts with
      | failure errs =>
        cases hae : opts.allErrors with
        | true =>
          obtain ⟨ih1, ih2, ih3⟩ := ih (es ++ [.key k0 ws] ++ [.key k0 errs]) out true
          simp only [iSigKeysLoop, hp, hv, hae]
          refine ⟨?_, ?_, ?_⟩
          · intro e he
            rcases ih1 e (by simpa using he) with h | ⟨n, hn, errs2, rfl⟩
            · rcases List.mem_append.mp h with h1 | h1
              · exact errScope_step (Or.inl h1)
              · exact Or.inr ⟨k0, List.mem_cons_self _ _, errs,
                  List.mem_singleton.mp h1⟩
            · exact Or.inr ⟨n, List.mem_cons_of_mem _ hn, errs2, rfl⟩
          · intro k hk
            rcases ih2 k (by simpa using hk) with h | h
            · exact Or.inl h
            · exact Or.inr (by simp [h])
          · intro r hr; exact ih3 r (by simpa using hr)
        | false =>
          simp only [iSigKeysLoop, hp, hv, hae]
          refine ⟨?_, ?_, ?_⟩
          · intro e he
            have he2 : e ∈ es ++ [PErr.key k0 ws] ++ [PErr.key k0 errs] := by
              simpa [stepErrs, errsOf] using he
            rcases List.mem_append.mp he2 with h1 | h1
            · exact errScope_step (Or.inl h1)
            · exact Or.inr ⟨k0, List.mem_cons_self _ _, errs, List.mem_singleton.mp h1⟩
          · intro k hk; simp [stepOutKeys] at hk
          · intro r hr
            simp only [Bool.false_eq_true, if_false, RecordStep.early.injEq] at hr
            rw [← hr]
            rfl
      | warning ws2 v =>
        obtain ⟨ih1, ih2, ih3⟩ := ih (es ++ [.key k0 ws] ++ [.key k0 ws2]) (setKey out k0 v) b
        simp only [iSigKeysLoop, hp, hv]
        refine ⟨?_, ?_, ?_⟩
        · intro e he
          rcases ih1 e (by simpa using he) with h | ⟨n, hn, errs2, rfl⟩
          · rcases List.mem_append.mp h with h1 | h1
            · exact errScope_step (Or.inl h1)
            · exact Or.inr ⟨k0, List.mem_cons_self _ _, ws2, List.mem_singleton.mp h1⟩
          · exact Or.inr ⟨n, List.mem_cons_of_mem _ hn, errs2, rfl⟩
        · intro k hk; exact keyScope_setKey (ih2 k (by simpa using hk))
        · intro r hr; exact ih3 r (by simpa using hr)
      | success v =>
        obtain ⟨ih1, ih2, ih3⟩ := ih (es ++ [.key k0 ws]) (setKey out k0 v) b
        simp only [iSigKeysLoop, hp, hv]
        refine ⟨?_, ?_, ?_⟩
        · intro e he; exact errScope_step (ih1 e (by simpa using he))
        · intro k hk; exact keyScope_setKey (ih2 k (by simpa using hk))
        · intro r hr; exact ih3 r (by simpa using hr)
    | success w =>
      cases hv : typeP (jsGetKey input k0) opts with
      | failure errs =>
        cases hae : opts.allErrors with
        | true =>
          obtain ⟨ih1, ih2, ih3⟩ := ih (es ++ [.key k0 errs]) out true
          simp only [iSigKeysLoop, hp, hv, hae]
          refine ⟨?_, ?_, ?_⟩
          · intro e he; exact errScope_step (ih1 e (by simpa using he))
          · intro k hk
            rcases ih2 k (by simpa using hk) with h | h
            · exact Or.inl h
            · exact Or.inr (by simp [h])
          · intro r hr; exact ih3 r (by simpa using hr)
        | false =>
          simp only [iSigKeysLoop, hp, hv, hae]
          refine ⟨?_, ?_, ?_⟩
          · intro e he
            exact errScope_early e (by simpa [stepErrs, errsOf] using he)
          · intro k hk; simp [stepOutKeys] at hk
          · intro r hr
            simp only [Bool.false_eq_true, if_false, RecordStep.early.injEq] at hr
            rw [← hr]
            rfl
      | warning ws2 v =>
        obtain ⟨ih1, ih2, ih3⟩ := ih (es ++ [.key k0 ws2]) (setKey out k0 v) b
        simp only [iSigKeysLoop, hp, hv]
        refine ⟨?_, ?_, ?_⟩
        · intro e he; exact errScope_step (ih1 e (by simpa using he))
        · intro k hk; exact keyScope_setKey (ih2 k (by simpa using hk))
        · intro r hr; exact ih3 r (by simpa using hr)
      | success v =>
        obtain ⟨ih1, ih2, ih3⟩ := ih es (setKey out k0 v) b
        simp only [iSigKeysLoop, hp, hv]
        refine ⟨?_, ?_, ?_⟩
        · intro e he; exact errScope_mono (ih1 e (by simpa using he))
        · intro k hk; exact keyScope_setKey (ih2 k (by simpa using hk))
        · intro r hr; exact ih3 r (by simpa using hr)

/-- Every error produced by the index-signatures loop beyond the incoming
accumulator is keyed by a key matched by one of the signatures; likewise
for output keys; an early return carries no value. -/
lemma iSigsLoop_scope (input : List (String × Value)) (opts : ParseOptions) :
    ∀ (sigs : List ((P × P) × AST)) (es : List PErr) (out : List (String × Value)) (b : Bool),
      (∀ e ∈ stepErrs (iSigsLoop input opts sigs es out b),
        e ∈ es ∨ ∃ n, (∃ sig ∈ sigs, n ∈ getKeysForIndexSignature input sig.2) ∧
          ∃ errs, e = PErr.key n errs) ∧
      (∀ k ∈ stepOutKeys (iSigsLoop input opts sigs es out b),
        k ∈ out.map Prod.fst ∨ ∃ sig ∈ sigs, k ∈ getKeysForIndexSignature input sig.2) ∧
      (∀ r, iSigsLoop input opts sigs es out b = .early r → resultValue r = none) := by
  intro sigs
  induction sigs with
  | nil =>
    intro es out b
    refine ⟨?_, ?_, ?_⟩
    · intro e he; exact Or.inl (by simpa [iSigsLoop, stepErrs] using he)
    · intro k hk; exact Or.inl (by simpa [iSigsLoop, stepOutKeys] using hk)
    · intro r hr; simp [iSigsLoop] at hr
  | cons sig0 tl ih =>
    intro es out b
    obtain ⟨⟨paramP, typeP⟩, paramAst⟩ := sig0
    obtain ⟨k1, k2, k3⟩ := iSigKeysLoop_scope input opts paramP typeP
      (getKeysForIndexSignature input paramAst) es out b
    cases hst : iSigKeysLoop input opts paramP typeP (getKeysForIndexSignature input paramAst)
        es out b with
    | early r =>
      simp only [iSigsLoop, hst]
      refine ⟨?_, ?_, ?_⟩
      · intro e he
        rcases k1 e (by rw [hst]; simpa [stepErrs] using he) with h | ⟨n, hn, errs, rfl⟩
        · exact Or.inl h
        · exact Or.inr ⟨n, ⟨((paramP, typeP), paramAst), List.mem_cons_self _ _, hn⟩, errs, rfl⟩
      · intro k hk; simp [stepOutKeys] at hk
      · intro r2 hr2
        simp only [RecordStep.early.injEq] at hr2
        exact hr2 ▸ k3 r (by rw [hst])
    | cont es2 out2 b2 =>
      obtain ⟨ih1, ih2, ih3⟩ := ih es2 out2 b2
      simp only [iSigsLoop, hst]
      refine ⟨?_, ?_, ?_⟩
      · intro e he
        rcases ih1 e he with h | ⟨n, ⟨sig, hs, hkmem⟩, errs, rfl⟩
        · rcases k1 e (by rw [hst]; simpa [stepErrs] using h) with h2 | ⟨n, hn, errs, rfl⟩
          · exact Or.inl h2
          · exact Or.inr ⟨n, ⟨((paramP, typeP), paramAst), List.mem_cons_self _ _, hn⟩, errs, rfl⟩
        · exact Or.inr ⟨n, ⟨sig, List.mem_cons_of_mem _ hs, hkmem⟩, errs, rfl⟩
      · intro k hk
        rcases ih2 k hk with h | ⟨sig, hs, hkmem⟩
        · rcases k2 k (by rw [hst]; simpa [stepOutKeys] using h) with h2 | h2
          · exact Or.inl h2
          · exact Or.inr ⟨((paramP, typeP), paramAst), List.mem_cons_self _ _, h2⟩
        · exact Or.inr ⟨sig, List.mem_cons_of_mem _ hs, hkmem⟩
      · exact ih3

lemma resultValue_mkRecordResult (es : List PErr) (out : List (String × Value)) (b : Bool)
    (v : Value) (h : resultValue (mkRecordResult es out b) = some v) : v = .obj out := by
  simp only [mkRecordResult] at h
  by_cases he : es.isEmpty = true
  · rw [if_pos he] at h
    simpa [resultValue] using h.symm
  · rw [if_neg he] at h
    cases b with
    | true => simp [resultValue] at h
    | false => simpa [resultValue] using h.symm

lemma errsOf_mkRecordResult_sub (es : List PErr) (out : List (String × Value)) (b : Bool)
    (e : PErr) (h : e ∈ errsOf (mkRecordResult es out b)) : e ∈ es := by
  simp only [mkRecordResult] at h
  by_cases he : es.isEmpty = true
  · rw [if_pos he] at h; simp [errsOf] at h
  · rw [if_neg he] at h
    cases b with
    | true => simpa [errsOf] using h
    | false => simpa [errsOf] using h

/-- The TypeLiteral parser with at least one index signature is the property
loop continued into the index-signatures loop. -/
lemma recordParse_sigs (pps : List (String × P × Bool)) (s0p : (P × P) × AST)
    (ips : List ((P × P) × AST)) (expected : List String) (input : List (String × Value))
    (opts : ParseOptions) :
    recordParse pps (s0p :: ips) expected (.obj input) opts =
      contISigs input opts (s0p :: ips) (propsLoop input opts pps [] [] false) := by
  simp only [recordParse]
  cases propsLoop input opts pps [] [] false with
  | early r => rfl
  | cont es out isLeft => rfl

/-- C9 (confirmed, implicit): for a TypeLiteral node with at least one index
signature, an own key of the input that is not a declared property name and
matches no index signature's key kind is silently ignored: no diagnostic is
keyed by it (in particular no Unexpected, even with
`isUnexpectedAllowed = false`), and it does not appear in the output
object. -/
theorem c9_index_sig_ignores_unmatched (dir : Direction)
    (props : List (String × AST × Bool)) (s0 : AST × AST) (isigs : List (AST × AST))
    (input : List (String × Value)) (opts : ParseOptions) (k : String)
    (hnp : k ∉ props.map Prod.fst)
    (hns : ∀ sig ∈ s0 :: isigs, k ∉ getKeysForIndexSignature input sig.1) :
    (∀ errs, PErr.key k errs ∉
      errsOf (go dir (.typeLiteral props (s0 :: isigs)) (.obj input) opts)) ∧
    (∀ kvs, resultValue (go dir (.typeLiteral props (s0 :: isigs)) (.obj input) opts) =
      some (.obj kvs) → k ∉ kvs.map Prod.fst) := by
  have hgo : go dir (.typeLiteral props (s0 :: isigs)) (.obj input) opts =
      contISigs input opts (goISigs dir (s0 :: isigs))
        (propsLoop input opts (goProps dir props) [] [] false) := by
    cases props with
    | nil =>
      show recordParse (goProps dir []) (goISigs dir (s0 :: isigs))
          (([] : List (String × AST × Bool)).map Prod.fst) (.obj input) opts = _
      obtain ⟨param, ty⟩ := s0
      rw [goISigs]
      exact recordParse_sigs _ _ _ _ _ _
    | cons p ps =>
      show recordParse (goProps dir (p :: ps)) (goISigs dir (s0 :: isigs))
          ((p :: ps).map Prod.fst) (.obj input) opts = _
      obtain ⟨param, ty⟩ := s0
      rw [goISigs]
      exact recordParse_sigs _ _ _ _ _ _
  -- no error keyed by `k`, and no output key `k`, can come from the props
  -- names or the matched keys
  have hkey : ∀ n, n ∈ (goProps dir props).map Prod.fst → n ≠ k := by
    intro n hn hcontra
    rw [goProps_names] at hn
    exact hnp (hcontra ▸ hn)
  have hsig : ∀ sigp ∈ goISigs dir (s0 :: isigs), k ∉ getKeysForIndexSignature input sigp.2 := by
    intro sigp hmem hcontra
    obtain ⟨sig, hs, he⟩ := goISigs_param dir _ sigp hmem
    exact hns sig hs (he ▸ hcontra)
  obtain ⟨hp1, hp2, hp3⟩ := propsLoop_scope input opts (goProps dir props) [] [] false
  rw [hgo]
  cases hst : propsLoop input opts (goProps dir props) [] [] false with
  | early r =>
    rw [hst] at hp1 hp3
    simp only [contISigs]
    constructor
    · intro errs hmem
      rcases hp1 _ (by simpa [stepErrs] using hmem) with h | ⟨n, hn, errs2, heq⟩
      · simp at h
      · exact hkey n hn (by injection heq.symm)
    · intro kvs hv
      rw [hp3 r rfl] at hv
      simp at hv
  | cont es out isLeft =>
    rw [hst] at hp1 hp2
    simp only [contISigs]
    obtain ⟨hs1, hs2, hs3⟩ := iSigsLoop_scope input opts (goISigs dir (s0 :: isigs)) es out isLeft
    have hesScope : ∀ e ∈ es, e ∈ ([] : List PErr) ∨
        ∃ n ∈ (goProps dir props).map Prod.fst, ∃ errs, e = PErr.key n errs := by
      intro e he
      exact hp1 e (by simpa [stepErrs] using he)
    have houtScope : ∀ k' ∈ out.map Prod.fst, k' ∈ ([] : List (String × Value)).map Prod.fst ∨
        k' ∈ (goProps dir props).map Prod.fst := by
      intro k' hk'
      exact hp2 k' (by simpa [stepOutKeys] using hk')
    cases hst2 : iSigsLoop input opts (goISigs dir (s0 :: isigs)) es out isLeft with
    | early r =>
      rw [hst2] at hs1 hs3
      simp only [finishR]
      constructor
      · intro errs hmem
        rcases hs1 _ (by simpa [stepErrs] using hmem) with h | ⟨n, ⟨sig, hsm, hkm⟩, errs2, heq⟩
        · rcases hesScope _ h with h2 | ⟨n, hn, errs2, heq⟩
          · simp at h2
          · exact hkey n hn (by injection heq.symm)
        · have : n = k := by injection heq.symm
          exact hsig sig hsm (this ▸ hkm)
      · intro kvs hv
        rw [hs3 r rfl] at hv
        simp at hv
    | cont es2 out2 b2 =>
      rw [hst2] at hs1 hs2
      simp only [finishR]
      constructor
      · intro errs hmem
        have hin : PErr.key k errs ∈ es2 := errsOf_mkRecordResult_sub es2 out2 b2 _ hmem
        rcases hs1 _ (by simpa [stepErrs] using hin) with h | ⟨n, ⟨sig, hsm, hkm⟩, errs2, heq⟩
        · rcases hesScope _ h with h2 | ⟨n, hn, errs2, heq⟩
          · simp at h2
          · exact hkey n hn (by injection heq.symm)
        · have : n = k := by injection heq.symm
          exact hsig sig hsm (this ▸ hkm)
      · intro kvs hv
        have : Value.obj kvs = .obj out2 := resultValue_mkRecordResult es2 out2 b2 _ hv
        have hkvs : kvs = out2 := by injection this
        subst hkvs
        intro hcontra
        rcases hs2 _ (by simpa [stepOutKeys] using hcontra) with h | ⟨sig, hsm, hkm⟩
        · rcases houtScope _ h with h2 | h2
          · simp at h2
          · rw [goProps_names] at h2
            exact hnp h2
        · exact hsig sig hsm hkm

/-- C9 (witness): a record with property `a` and a symbol index signature on
input `{a: "x", zzz: 5}` — the unmatched string key `zzz` yields no
diagnostic and is dropped from the output. -/
theorem c9_witness :
    (PErr.key "zzz" [] ∉
      errsOf (go .decoder (.typeLiteral [("a", .stringKeyword, false)]
        [(.symbolKeyword, .stringKeyword)]) (.obj [("a", .str "x"), ("zzz", .num 5)])
        ⟨false, false⟩)) ∧
    ("zzz" ∉ (["a"].map (fun s => (s, Value.str "x"))).map Prod.fst →
      go .decoder (.typeLiteral [("a", .stringKeyword, false)]
        [(.symbolKeyword, .stringKeyword)]) (.obj [("a", .str "x"), ("zzz", .num 5)])
        ⟨false, false⟩ = .success (.obj [("a", .str "x")])) := by
  constructor
  · exact (c9_index_sig_ignores_unmatched .decoder [("a", .stringKeyword, false)]
      (.symbolKeyword, .stringKeyword) [] [("a", .str "x"), ("zzz", .num 5)] ⟨false, false⟩
      "zzz" (by simp) (by intro sig hs; simp at hs; rw [hs]; simp [getKeysForIndexSignature])).1 []
  · intro _
    rfl

/-! ### Extra indexes tolerated as warnings -/

lemma goElems_length (dir : Direction) :
    ∀ (els : List (AST × Bool)), (goElems dir els).length = els.length := by
  intro els
  induction els with
  | nil => rfl
  | cons e tl ih => obtain ⟨a, b⟩ := e; simp [goElems, ih]

/-- When every element position parses to a clean success, the elements loop
passes through with exactly those outputs and no diagnostics. -/
lemma elemsLoop_ok (input : List Value) (opts : ParseOptions) :
    ∀ (eps : List (P × Bool)) (i : Nat) (ys : List Value) (es : List PErr) (out : List Value)
      (b : Bool),
      elemsOutputs input opts eps i = some ys →
      i + eps.length ≤ input.length →
      elemsLoop input opts eps i es out b = .cont es (out ++ ys) b (i + eps.length) := by
  intro eps
  induction eps with
  | nil =>
    intro i ys es out b hok _
    simp only [elemsOutputs, Option.some.injEq] at hok
    simp [elemsLoop, ← hok]
  | cons e tl ih =>
    intro i ys es out b hok hl
    obtain ⟨p, isOpt⟩ := e
    have hmiss : ¬ input.length < i + 1 := by
      simp only [List.length_cons] at hl
      omega
    cases hp : p (jsIndex input i) opts with
    | failure errs => simp [elemsOutputs, hp] at hok
    | warning ws v => simp [elemsOutputs, hp] at hok
    | success v =>
      simp only [elemsOutputs, hp, Option.map_eq_some'] at hok
      obtain ⟨ys', hok', rfl⟩ := hok
      have hl' : (i + 1) + tl.length ≤ input.length := by
        simp only [List.length_cons] at hl
        omega
      have := ih (i + 1) ys' es (out ++ [v]) b hok' hl'
      simp only [elemsLoop, if_neg hmiss, hp, List.length_cons]
      rw [this]
      simp [List.append_assoc]
      omega

/-- With `isUnexpectedAllowed`, the unexpected-indexes loop only collects
warnings and never turns the result fatal. -/
lemma unexpectedIdxLoop_allow (input : List Value) (opts : ParseOptions)
    (ha : opts.isUnexpectedAllowed = true) :
    ∀ (n i : Nat) (es : List PErr) (out : List Value) (b : Bool),
      unexpectedIdxLoop input opts n i es out b =
        .cont (es ++ (List.range' i n).map
            (fun j => PErr.index j [.unexpected (jsIndex input j)])) out b (i + n) := by
  intro n
  induction n with
  | zero => intro i es out b; simp [unexpectedIdxLoop, List.range']
  | succ n ih =>
    intro i es out b
    have e2 : i + (n + 1) = (i + 1) + n := by omega
    simp only [unexpectedIdxLoop, ha, if_true, List.range']
    rw [ih]
    simp [List.append_assoc, e2]

/-- C10 (confirmed, implicit): for a tuple without rest element, when
`isUnexpectedAllowed` is true and the array input is longer than
`elements.length` with every element position parsing cleanly, the result
is a Warning whose value contains only the first `elements.length`
validated positions; every extra input position is reported as
`Index(i, [Unexpected(...)])` but its value is not included in the
output. -/
theorem c10_tuple_extra_warn (dir : Direction) (els : List (AST × Bool)) (ro : Bool)
    (input : List Value) (ae : Bool) (ys : List Value)
    (hlen : els.length < input.length)
    (hok : elemsOutputs input ⟨true, ae⟩ (goElems dir els) 0 = some ys) :
    go dir (.tuple els none ro) (.arr input) ⟨true, ae⟩ =
      .warning ((List.range' els.length (input.length - els.length)).map
          (fun i => PErr.index i [.unexpected (jsIndex input i)]))
        (.arr ys) := by
  have hl : 0 + (goElems dir els).length ≤ input.length := by
    rw [goElems_length]
    omega
  rw [go_tuple_norest, elemsLoop_ok input ⟨true, ae⟩ _ 0 ys [] [] false hok hl]
  simp only [contUnex]
  rw [unexpectedIdxLoop_allow input ⟨true, ae⟩ rfl]
  simp only [finishT, goElems_length, Nat.zero_add, List.nil_append]
  have hne : ((List.range' els.length (input.length - els.length)).map
      (fun j => PErr.index j [.unexpected (jsIndex input j)])).isEmpty = false := by
    cases hcase : (List.range' els.length (input.length - els.length)).map
        (fun j => PErr.index j [.unexpected (jsIndex input j)]) with
    | nil =>
      have hlc := congrArg List.length hcase
      simp [List.length_range'] at hlc
      omega
    | cons a l => simp [List.isEmpty]
  simp [mkTupleResult, hne]

/-- C10 (witness): the one-element tuple `[string]` on `["a", 1]` with
`isUnexpectedAllowed` yields a Warning for the extra index 1 and an output
containing only `"a"`. -/
theorem c10_witness :
    ([(AST.stringKeyword, false)] : List (AST × Bool)).length <
        ([Value.str "a", Value.num 1] : List Value).length ∧
      elemsOutputs [Value.str "a", Value.num 1] ⟨true, false⟩
          (goElems .decoder [(.stringKeyword, false)]) 0 = some [Value.str "a"] ∧
      go .decoder (.tuple [(.stringKeyword, false)] none true)
          (.arr [.str "a", .num 1]) ⟨true, false⟩ =
        .warning [.index 1 [.unexpected (.num 1)]] (.arr [.str "a"]) := by
  refine ⟨by decide, rfl, ?_⟩
  exact c10_tuple_extra_warn .decoder [(.stringKeyword, false)] true
    [.str "a", .num 1] false [.str "a"] (by decide) rfl

end Schema
